import Mathlib

/-!
Verification development for the semantic-search-engine repository.

Shallow embedding of the Python backend in src/backend/python:
  chunker.py, vector_store.py, bm25_search.py, hybrid_search.py,
  search_docs.py, index_metadata.py, sync_engine.py, config.py.
Python strings are modelled as List Char; Python dicts keyed by strings as
association lists or as finitely supported functions; float arithmetic as
exact rationals, except the BM25 scores whose math.log forces real numbers.
-/

/-! ## chunker.py -/

/-- Python str.strip and regex class backslash-s whitespace (ASCII part). -/
def pyIsSpace (c : Char) : Bool :=
  c = ' ' || c = '\t' || c = '\n' || c = '\r' || c = '\x0b' || c = '\x0c'

/-- Python text.strip(). -/
def pyStrip (s : List Char) : List Char :=
  ((s.dropWhile pyIsSpace).reverse.dropWhile pyIsSpace).reverse

/-- Index of the last newline of a list, if any. -/
def lastNewlineIdx (l : List Char) : Option Nat :=
  ((l.enum.filter (fun p => p.2 == '\n')).map Prod.fst).getLast?

/-- Scanner for re.split of a newline, a greedy whitespace run, a newline
(the separator regex of chunk_text). At a newline whose following whitespace
run contains another newline, the separator runs up to the last newline of
that run (greedy with the final mandatory newline). Fuel is the remaining
length, so the recursion is structural. -/
def splitParasAux : Nat → List Char → List Char → List (List Char)
  | _, acc, [] => [acc.reverse]
  | 0, acc, rest => [acc.reverse ++ rest]
  | fuel + 1, acc, c :: rest =>
    if c = '\n' then
      match lastNewlineIdx (rest.takeWhile pyIsSpace) with
      | some j => acc.reverse :: splitParasAux fuel [] (rest.drop (j + 1))
      | none => splitParasAux fuel (c :: acc) rest
    else splitParasAux fuel (c :: acc) rest

/-- re.split of the blank-line separator, as chunk_text uses it. -/
def splitParas (s : List Char) : List (List Char) :=
  splitParasAux s.length [] s

/-- A sentence-final punctuation character. -/
def isSentEnd (c : Char) : Bool := c = '.' || c = '!' || c = '?'

/-- re.search of punctuation then whitespace, returning the suffix after the
match end (greedy whitespace run), as in the helper building the overlap. -/
def sentBreakSuffix : List Char → Option (List Char)
  | [] => none
  | [_] => none
  | c :: d :: rest =>
    if isSentEnd c && pyIsSpace d then some ((d :: rest).dropWhile pyIsSpace)
    else sentBreakSuffix (d :: rest)

/-- tail.find of a space then the suffix after it. -/
def afterFirstSpace : List Char → Option (List Char)
  | [] => none
  | c :: rest => if c = ' ' then some rest else afterFirstSpace rest

/-- The last overlap_chars of text, trimmed forward to a sentence boundary,
else to the first space, else the raw tail. When overlap_chars is zero the
Python slice text[-0:] is the whole text, mirrored here. -/
def get_overlap (text : List Char) (overlap_chars : Nat) : List Char :=
  if text.length ≤ overlap_chars then text
  else
    let tail := if overlap_chars = 0 then text else text.drop (text.length - overlap_chars)
    match sentBreakSuffix tail with
    | some s => s
    | none =>
      match afterFirstSpace tail with
      | some s => s
      | none => tail

/-- Scanner for re.split at whitespace runs preceded by sentence punctuation
(lookbehind), used on a single long paragraph. prev is the previously
consumed character. Fuel is the remaining length. -/
def splitSentencesAux : Nat → Option Char → List Char → List Char → List (List Char)
  | _, _, acc, [] => [acc.reverse]
  | 0, _, acc, rest => [acc.reverse ++ rest]
  | fuel + 1, prev, acc, c :: rest =>
    if pyIsSpace c && (match prev with | some p => isSentEnd p | none => false) then
      let run := rest.takeWhile pyIsSpace
      acc.reverse :: splitSentencesAux fuel (some (run.getLast?.getD c)) [] (rest.drop run.length)
    else splitSentencesAux fuel (some c) (c :: acc) rest

/-- re.split of a paragraph into sentences at punctuation-then-whitespace. -/
def splitSentences (s : List Char) : List (List Char) :=
  splitSentencesAux s.length none [] s

/-- The hard split of one oversized sentence: slices of chunk_size characters
every chunk_size - overlap characters. Python range would fault on a
non-positive step; the guard returns the empty list there (the defaults give
step 1800). -/
def hardSplit (s : List Char) (chunk_size overlap : Nat) : List (List Char) :=
  let step := chunk_size - overlap
  if step = 0 then []
  else (List.range ((s.length + step - 1) / step)).map (fun i => (s.drop (i * step)).take chunk_size)

/-- One step of the sentence-accumulation loop of _split_long_paragraph:
the accumulator is (flushed chunks, current chunk). -/
def slpStep (chunk_size overlap : Nat) (acc : List (List Char) × List Char)
    (sentence : List Char) : List (List Char) × List Char :=
  let chunks := acc.1
  let current := acc.2
  if chunk_size < current.length + sentence.length + 1 then
    if current ≠ [] then
      let ov := get_overlap current overlap
      (chunks ++ [pyStrip current], if ov ≠ [] then ov ++ ' ' :: sentence else sentence)
    else
      (chunks ++ hardSplit sentence chunk_size overlap, [])
  else
    (chunks, if current ≠ [] then current ++ ' ' :: sentence else sentence)

/-- _split_long_paragraph: split one long paragraph by sentence boundaries
with the greedy accumulation rule. -/
def split_long_paragraph (text : List Char) (chunk_size overlap : Nat) : List (List Char) :=
  let sentences := splitSentences text
  let r := sentences.foldl (slpStep chunk_size overlap) ([], [])
  if pyStrip r.2 ≠ [] then r.1 ++ [pyStrip r.2] else r.1

/-- One chunk of chunker output: text plus positional metadata. -/
structure Chunk where
  text : List Char
  chunk_index : Nat
  total_chunks : Nat
deriving Repr, DecidableEq

/-- One step of the paragraph-accumulation loop of chunk_text. -/
def ctStep (chunk_size overlap : Nat) (acc : List (List Char) × List Char)
    (para0 : List Char) : List (List Char) × List Char :=
  let chunks := acc.1
  let current := acc.2
  let para := pyStrip para0
  if para = [] then (chunks, current)
  else if chunk_size < current.length + para.length + 2 then
    if current ≠ [] then
      let ov := get_overlap current overlap
      (chunks ++ [pyStrip current],
        if ov ≠ [] then ov ++ '\n' :: '\n' :: para else para)
    else
      match split_long_paragraph para chunk_size overlap with
      | [] => (chunks, para)
      | sc => (chunks ++ sc.dropLast, sc.getLast?.getD para)
  else
    (chunks, if current ≠ [] then current ++ '\n' :: '\n' :: para else para)

/-- chunker.py defaults. -/
def CHUNK_SIZE : Nat := 2000

/-- chunker.py defaults. -/
def CHUNK_OVERLAP : Nat := 200

/-- chunk_text: trim; short text is one chunk; otherwise accumulate
paragraphs greedily, flushing with an overlap seed, and enumerate at the
end so every chunk carries the final total. -/
def chunk_text (text0 : List Char) (chunk_size overlap : Nat) : List Chunk :=
  let text := pyStrip text0
  if text = [] then []
  else if text.length ≤ chunk_size then [⟨text, 0, 1⟩]
  else
    let paragraphs := splitParas text
    let r := paragraphs.foldl (ctStep chunk_size overlap) ([], [])
    let chunks := if pyStrip r.2 ≠ [] then r.1 ++ [pyStrip r.2] else r.1
    chunks.enum.map (fun p => ⟨p.2, p.1, chunks.length⟩)

example : chunk_text "hello world".toList CHUNK_SIZE CHUNK_OVERLAP
    = [⟨"hello world".toList, 0, 1⟩] := by decide

example : chunk_text "   ".toList CHUNK_SIZE CHUNK_OVERLAP = [] := by decide

example : splitParas "aa\n\nbb".toList = ["aa".toList, "bb".toList] := by decide

example : splitSentences "a. b".toList = ["a.".toList, "b".toList] := by decide

/-! ## vector_store.py

The LanceDB table is modelled as a list of rows; the embedding vector and
the stringified metadata column carry no information any claim touches and
are omitted. get_file_hash reads the filesystem, so the hash obtained for
the path at call time is a parameter. -/

/-- One persisted chunk row of the documents table. -/
structure Row where
  text : List Char
  file_path : String
  file_hash : Option String
  chunk_index : Nat
  total_chunks : Nat
deriving Repr, DecidableEq

/-- store_document: delete all rows of the path, chunk the text, and append
one row per chunk (all rows of the call share the one file_hash). Returns
the new table and the returned chunk count. -/
def store_document (store : List Row) (file_path : String) (text : List Char)
    (file_hash : Option String) : List Row × Nat :=
  let store := store.filter (fun r => r.file_path != file_path)
  let chunks := chunk_text text CHUNK_SIZE CHUNK_OVERLAP
  if chunks = [] then (store, 0)
  else
    (store ++ chunks.map (fun c =>
      { text := c.text, file_path := file_path, file_hash := file_hash,
        chunk_index := c.chunk_index, total_chunks := c.total_chunks }),
     chunks.length)

/-- delete_document: remove all rows of the path. -/
def delete_document (store : List Row) (file_path : String) : List Row :=
  store.filter (fun r => r.file_path != file_path)

/-- A store_document or delete_document call. -/
inductive StoreOp where
  | storeDoc (file_path : String) (text : List Char) (file_hash : Option String)
  | deleteDoc (file_path : String)

/-- Effect of one call on the table. -/
def applyOp (store : List Row) : StoreOp → List Row
  | .storeDoc p t h => (store_document store p t h).1
  | .deleteDoc p => delete_document store p

/-- The table after a sequence of calls against an empty database. -/
def runOps (ops : List StoreOp) : List Row := ops.foldl applyOp []

/-- The rows currently persisted for one file path. -/
def rowsFor (store : List Row) (p : String) : List Row :=
  store.filter (fun r => r.file_path == p)

/-- The store-shape invariant: per path, the chunk_index column lists
exactly 0..n-1 in order, every total_chunks equals the row count, and all
rows share one file_hash. -/
def StoreInv (store : List Row) : Prop :=
  ∀ p : String,
    (rowsFor store p).map Row.chunk_index = List.range (rowsFor store p).length ∧
    (∀ r ∈ rowsFor store p, r.total_chunks = (rowsFor store p).length) ∧
    (∀ r ∈ rowsFor store p, ∀ r2 ∈ rowsFor store p, r.file_hash = r2.file_hash)

/-! Structure of the chunker output: every branch of chunk_text ends in the
final enumeration, which fixes the chunk_index and total_chunks columns. -/

theorem chunk_text_eq_enum (t : List Char) (cs ov : Nat) :
    ∃ l : List (List Char),
      chunk_text t cs ov = l.enum.map (fun p => (⟨p.2, p.1, l.length⟩ : Chunk)) := by
  simp only [chunk_text]
  split
  · exact ⟨[], rfl⟩
  · split
    · exact ⟨[pyStrip t], rfl⟩
    · exact ⟨_, rfl⟩

theorem enum_chunks_map_index (l : List (List Char)) (n : Nat) :
    ((l.enum.map (fun p => (⟨p.2, p.1, n⟩ : Chunk))).map Chunk.chunk_index)
      = List.range l.length := by
  rw [List.map_map]
  exact List.enum_map_fst l

theorem chunk_text_index_range (t : List Char) (cs ov : Nat) :
    (chunk_text t cs ov).map Chunk.chunk_index = List.range (chunk_text t cs ov).length := by
  obtain ⟨l, hl⟩ := chunk_text_eq_enum t cs ov
  rw [hl, enum_chunks_map_index, List.length_map, List.enum_length]

theorem chunk_text_total (t : List Char) (cs ov : Nat) :
    ∀ c ∈ chunk_text t cs ov, c.total_chunks = (chunk_text t cs ov).length := by
  obtain ⟨l, hl⟩ := chunk_text_eq_enum t cs ov
  rw [hl]
  intro c hc
  obtain ⟨p, _, rfl⟩ := List.mem_map.mp hc
  simp [List.enum_length]

/-! Row bookkeeping lemmas. -/

theorem filter_eq_filter_ne (s : List Row) (p : String) :
    (s.filter (fun r => r.file_path != p)).filter (fun r => r.file_path == p) = [] := by
  induction s with
  | nil => rfl
  | cons a s ih =>
    by_cases h : a.file_path = p
    · simp [List.filter_cons, h, ih]
    · simp [List.filter_cons, h, ih]

theorem filter_ne_filter_eq (s : List Row) (p q : String) (hne : q ≠ p) :
    (s.filter (fun r => r.file_path != p)).filter (fun r => r.file_path == q)
      = s.filter (fun r => r.file_path == q) := by
  induction s with
  | nil => rfl
  | cons a s ih =>
    by_cases h : a.file_path = q
    · have h2 : a.file_path ≠ p := by rw [h]; exact hne
      simp [List.filter_cons, h, h2, ih, hne]
    · by_cases h2 : a.file_path = p <;>
        simp [List.filter_cons, h, h2, ih, hne, Ne.symm hne]

theorem rowsFor_store_self (s : List Row) (p : String) (t : List Char) (h : Option String) :
    rowsFor (store_document s p t h).1 p
      = (chunk_text t CHUNK_SIZE CHUNK_OVERLAP).map (fun c =>
          { text := c.text, file_path := p, file_hash := h,
            chunk_index := c.chunk_index, total_chunks := c.total_chunks }) := by
  simp only [store_document, rowsFor]
  split
  · rename_i hc
    rw [hc, List.map_nil]
    exact filter_eq_filter_ne s p
  · rw [List.filter_append, filter_eq_filter_ne s p, List.nil_append]
    apply List.filter_eq_self.mpr
    intro r hr
    obtain ⟨c, _, rfl⟩ := List.mem_map.mp hr
    simp

theorem rowsFor_store_other (s : List Row) (p : String) (t : List Char) (h : Option String)
    (q : String) (hne : q ≠ p) :
    rowsFor (store_document s p t h).1 q = rowsFor s q := by
  simp only [store_document, rowsFor]
  split
  · exact filter_ne_filter_eq s p q hne
  · rw [List.filter_append, filter_ne_filter_eq s p q hne]
    have : (List.filter (fun r => r.file_path == q)
        ((chunk_text t CHUNK_SIZE CHUNK_OVERLAP).map (fun c =>
          ({ text := c.text, file_path := p, file_hash := h,
             chunk_index := c.chunk_index, total_chunks := c.total_chunks } : Row)))) = [] := by
      apply List.filter_eq_nil_iff.mpr
      intro r hr
      obtain ⟨c, _, rfl⟩ := List.mem_map.mp hr
      simp [Ne.symm hne]
    rw [this, List.append_nil]

theorem rowsFor_delete (s : List Row) (p q : String) :
    rowsFor (delete_document s p) q = if q = p then [] else rowsFor s q := by
  simp only [delete_document, rowsFor]
  split
  · rename_i hq
    rw [hq]
    exact filter_eq_filter_ne s p
  · rename_i hq
    exact filter_ne_filter_eq s p q hq

theorem storeInv_nil : StoreInv [] := by
  intro p
  refine ⟨rfl, ?_, ?_⟩ <;> intro r hr <;> simp [rowsFor] at hr

theorem storeInv_applyOp (s : List Row) (hs : StoreInv s) (op : StoreOp) :
    StoreInv (applyOp s op) := by
  cases op with
  | storeDoc p t h =>
    intro q
    by_cases hq : q = p
    · subst hq
      rw [show applyOp s (StoreOp.storeDoc q t h) = (store_document s q t h).1 from rfl,
        rowsFor_store_self]
      refine ⟨?_, ?_, ?_⟩
      · rw [List.map_map, List.length_map]
        have := chunk_text_index_range t CHUNK_SIZE CHUNK_OVERLAP
        simpa [Function.comp_def] using this
      · intro r hr
        obtain ⟨c, hc, rfl⟩ := List.mem_map.mp hr
        rw [List.length_map]
        exact chunk_text_total t CHUNK_SIZE CHUNK_OVERLAP c hc
      · intro r hr r2 hr2
        obtain ⟨c, _, rfl⟩ := List.mem_map.mp hr
        obtain ⟨c2, _, rfl⟩ := List.mem_map.mp hr2
        rfl
    · rw [show applyOp s (StoreOp.storeDoc p t h) = (store_document s p t h).1 from rfl,
        rowsFor_store_other s p t h q hq]
      exact hs q
  | deleteDoc p =>
    intro q
    rw [show applyOp s (StoreOp.deleteDoc p) = delete_document s p from rfl, rowsFor_delete]
    by_cases hq : q = p
    · simp only [hq, if_pos rfl]
      refine ⟨rfl, ?_, ?_⟩ <;> intro r hr <;> simp at hr
    · simp only [if_neg hq]
      exact hs q

/-- C1: after any sequence of store_document and delete_document calls, for
every file_path the persisted chunk rows for that path all carry one
file_hash, their chunk_index values are exactly the contiguous range
0..total_chunks-1, and each total_chunks equals the row count. -/
theorem store_shape_invariant (ops : List StoreOp) : StoreInv (runOps ops) := by
  have key : ∀ (l : List StoreOp) (s : List Row), StoreInv s → StoreInv (l.foldl applyOp s) := by
    intro l
    induction l with
    | nil => intro s hs; exact hs
    | cons op l ih =>
      intro s hs
      exact ih (applyOp s op) (storeInv_applyOp s hs op)
  exact key ops [] storeInv_nil

theorem store_document_snd (s : List Row) (p : String) (t : List Char) (h : Option String) :
    (store_document s p t h).2 = (chunk_text t CHUNK_SIZE CHUNK_OVERLAP).length := by
  simp only [store_document]
  split
  · rename_i hc
    rw [hc]
    rfl
  · rfl

/-- C2: indexing the same text twice for the same path leaves exactly
chunk_count(t) rows for that path, and the second call returns that count
(the delete-then-insert makes the call idempotent, so no rows accumulate). -/
theorem indexer_idempotent (store : List Row) (p : String) (t : List Char)
    (h1 h2 : Option String) :
    (rowsFor (store_document (store_document store p t h1).1 p t h2).1 p).length
        = (chunk_text t CHUNK_SIZE CHUNK_OVERLAP).length ∧
      (store_document (store_document store p t h1).1 p t h2).2
        = (chunk_text t CHUNK_SIZE CHUNK_OVERLAP).length := by
  constructor
  · rw [rowsFor_store_self, List.length_map]
  · exact store_document_snd _ p t h2

theorem pyStrip_all_space (t : List Char) (h : ∀ c ∈ t, pyIsSpace c = true) :
    pyStrip t = [] := by
  unfold pyStrip
  have : t.dropWhile pyIsSpace = [] := List.dropWhile_eq_nil_iff.mpr h
  rw [this]
  rfl

/-- C9: whitespace-only text chunks to the empty list, and store_document on
it returns zero and inserts no rows (the table keeps only the delete effect). -/
theorem whitespace_text_empty (t : List Char) (cs ov : Nat) (store : List Row)
    (p : String) (fh : Option String) (h : ∀ c ∈ t, pyIsSpace c = true) :
    chunk_text t cs ov = [] ∧
      store_document store p t fh = (store.filter (fun r => r.file_path != p), 0) := by
  have hempty : ∀ cs2 ov2, chunk_text t cs2 ov2 = [] := by
    intro cs2 ov2
    unfold chunk_text
    rw [pyStrip_all_space t h]
    rfl
  refine ⟨hempty cs ov, ?_⟩
  simp only [store_document]
  rw [hempty CHUNK_SIZE CHUNK_OVERLAP]
  rfl

/-- C9 witness at a concrete whitespace-only input. -/
theorem whitespace_text_empty_witness :
    chunk_text [' '] 5 1 = [] ∧ store_document [] "f" [' '] none = ([], 0) := by
  simpa using whitespace_text_empty [' '] 5 1 [] "f" none (by decide)

/-! ## config.py

get_table_name and get_dimensions read the configured model name and look it
up in the MODELS map, defaulting to the all-MiniLM-L6-v2 entry. The
configured name (from engine_config.json) is a parameter. -/

/-- One entry of the MODELS map. -/
structure ModelCfg where
  table_name : String
  dimensions : Nat
deriving Repr, DecidableEq

/-- The MODELS map of config.py. -/
def MODELS : List (String × ModelCfg) :=
  [("all-MiniLM-L6-v2", ⟨"documents_v2", 384⟩),
   ("all-mpnet-base-v2", ⟨"documents_mpnet", 768⟩)]

/-- Python MODELS.get(model, MODELS["all-MiniLM-L6-v2"]). -/
def modelsGet (model : String) : ModelCfg :=
  match MODELS.find? (fun p => p.1 == model) with
  | some p => p.2
  | none => ⟨"documents_v2", 384⟩

/-- get_table_name for a configured embedding model name. -/
def get_table_name (embedding_model : String) : String :=
  (modelsGet embedding_model).table_name

/-- get_dimensions for a configured embedding model name. -/
def get_dimensions (embedding_model : String) : Nat :=
  (modelsGet embedding_model).dimensions

/-- C10: any configured model name other than the two known ones falls back
to the default table documents_v2 and 384 dimensions. -/
theorem unknown_model_fallback (m : String)
    (h1 : m ≠ "all-MiniLM-L6-v2") (h2 : m ≠ "all-mpnet-base-v2") :
    get_table_name m = "documents_v2" ∧ get_dimensions m = 384 := by
  have hfind : MODELS.find? (fun p => p.1 == m) = none := by
    rw [List.find?_eq_none]
    intro p hp
    simp only [ MODELS, List.mem_cons, List.not_mem_nil, or_false] at hp
    rcases hp with rfl | rfl
    · simpa using Ne.symm h1
    · simpa using Ne.symm h2
  constructor <;> simp [get_table_name, get_dimensions, modelsGet, hfind]

/-- C10 witness at a misspelled model name. -/
theorem unknown_model_fallback_witness :
    get_table_name "all-minilm-l6-v2" = "documents_v2" ∧
      get_dimensions "all-minilm-l6-v2" = 384 :=
  unknown_model_fallback "all-minilm-l6-v2" (by decide) (by decide)

/-! ## sync_engine.py

sync_connector gates on the in-progress set, runs the connector sync on the
pool, indexes when new items arrived, and removes the id in a finally
block. The connector lookup result and the outcomes of the sync call and of
the indexing step (normal return or raised exception) are parameters; an
Except.error result models an exception propagating out of the call. -/

/-- The value sync_connector returns when it does not raise. -/
inductive SyncRet where
  | errorResult (msg : String)
  | syncResult (new_items : Nat)
deriving Repr, DecidableEq

/-- Observable outcome of one sync_connector call. -/
structure SyncStep where
  result : Except Unit SyncRet
  inProgressAfter : List String
  syncCalled : Bool
  indexCalled : Bool

/-- sync_connector: the guard, the connector lookup, the guarded add, the
sync on the pool, the conditional indexing, and the unconditional discard
of the finally block. -/
def sync_connector (inProgress : List String) (cid : String) (found : Bool)
    (syncOutcome : Except Unit Nat) (indexOutcome : Except Unit Unit) : SyncStep :=
  if inProgress.contains cid then
    ⟨.ok (.errorResult "Sync already in progress for this connector"), inProgress, false, false⟩
  else if !found then
    ⟨.ok (.errorResult "Connector not found"), inProgress, false, false⟩
  else
    let added := cid :: inProgress
    let after := added.filter (fun x => x != cid)
    match syncOutcome with
    | .error e => ⟨.error e, after, true, false⟩
    | .ok n =>
      if 0 < n then
        match indexOutcome with
        | .error e => ⟨.error e, after, true, true⟩
        | .ok _ => ⟨.ok (.syncResult n), after, true, true⟩
      else ⟨.ok (.syncResult n), after, true, false⟩

/-- The at-most-one-sync contract: a call that finds the id in progress
returns the in-band error untouched and runs nothing, and whenever the sync
was actually started the id is absent from the in-progress set afterwards,
on every completion path including raised exceptions. -/
def SyncGateOk (inProgress : List String) (cid : String) (found : Bool)
    (syncOutcome : Except Unit Nat) (indexOutcome : Except Unit Unit) : Prop :=
  (inProgress.contains cid = true →
      (sync_connector inProgress cid found syncOutcome indexOutcome).result
          = .ok (.errorResult "Sync already in progress for this connector") ∧
        (sync_connector inProgress cid found syncOutcome indexOutcome).syncCalled = false ∧
        (sync_connector inProgress cid found syncOutcome indexOutcome).indexCalled = false ∧
        (sync_connector inProgress cid found syncOutcome indexOutcome).inProgressAfter
          = inProgress) ∧
  ((sync_connector inProgress cid found syncOutcome indexOutcome).syncCalled = true →
      cid ∉ (sync_connector inProgress cid found syncOutcome indexOutcome).inProgressAfter)

/-- C8: the in-progress gate returns the error result immediately without
invoking sync or indexing, and a started sync always ends with the id
removed from the in-progress set, also when sync or indexing raises. -/
theorem sync_connector_gate (inProgress : List String) (cid : String) (found : Bool)
    (syncOutcome : Except Unit Nat) (indexOutcome : Except Unit Unit) :
    SyncGateOk inProgress cid found syncOutcome indexOutcome := by
  have habs : ∀ l : List String, cid ∉ l.filter (fun x => x != cid) := by
    intro l hmem
    have := List.of_mem_filter hmem
    simp at this
  constructor
  · intro h
    have hmem : cid ∈ inProgress := by simpa using h
    simp [sync_connector, hmem]
  · intro h
    by_cases hg : cid ∈ inProgress
    · simp [sync_connector, hg] at h
    · cases found with
      | false => simp [sync_connector, hg] at h
      | true =>
        cases syncOutcome with
        | error e => simp [sync_connector, hg]
        | ok n =>
          by_cases hn : 0 < n
          · cases indexOutcome with
            | error e => simp [sync_connector, hg, hn]
            | ok u => simp [sync_connector, hg, hn]
          · simp [sync_connector, hg, hn]

/-! ## Stable sorting

Python list.sort is stable; list.sort with a key plus reverse=True keeps
equal-key elements in input order too. Both are modelled by insertion sort
with a Bool precedence le, where le x y reads: x may stand before y. -/

/-- Insert x in front of the first y with le x y. -/
def insertStable {α : Type} (le : α → α → Bool) (x : α) : List α → List α
  | [] => [x]
  | y :: ys => if le x y then x :: y :: ys else y :: insertStable le x ys

/-- Stable insertion sort by the precedence le. -/
def stableSort {α : Type} (le : α → α → Bool) : List α → List α
  | [] => []
  | x :: xs => insertStable le x (stableSort le xs)

theorem insertStable_perm {α : Type} (le : α → α → Bool) (x : α) (l : List α) :
    List.Perm (insertStable le x l) (x :: l) := by
  induction l with
  | nil => exact List.Perm.refl _
  | cons y ys ih =>
    by_cases h : le x y
    · simp [insertStable, h]
    · simp only [insertStable, h, if_neg, Bool.false_eq_true, not_false_eq_true]
      exact (ih.cons y).trans (List.Perm.swap x y ys)

theorem stableSort_perm {α : Type} (le : α → α → Bool) (l : List α) :
    List.Perm (stableSort le l) l := by
  induction l with
  | nil => exact List.Perm.refl _
  | cons x xs ih =>
    exact (insertStable_perm le x (stableSort le xs)).trans (ih.cons x)

theorem mem_stableSort {α : Type} (le : α → α → Bool) (l : List α) (z : α) :
    z ∈ stableSort le l ↔ z ∈ l :=
  (stableSort_perm le l).mem_iff

theorem pairwise_insertStable {α : Type} {le : α → α → Bool}
    (htrans : ∀ a b c, le a b = true → le b c = true → le a c = true)
    (htot : ∀ a b, le a b = true ∨ le b a = true)
    {S : α → α → Prop} (x : α) (l : List α)
    (hl : l.Pairwise (fun a b => le a b = true ∧ (le b a = true → S a b)))
    (hx : ∀ y ∈ l, S x y) :
    (insertStable le x l).Pairwise (fun a b => le a b = true ∧ (le b a = true → S a b)) := by
  induction l with
  | nil => simp [insertStable]
  | cons y ys ih =>
    rcases List.pairwise_cons.mp hl with ⟨hy, hys⟩
    by_cases h : le x y
    · simp only [insertStable, h, if_pos]
      refine List.Pairwise.cons ?_ hl
      intro z hz
      rcases List.mem_cons.mp hz with rfl | hz2
      · exact ⟨h, fun _ => hx z (List.mem_cons_self _ _)⟩
      · exact ⟨htrans x y z h (hy z hz2).1, fun _ => hx z (List.mem_cons_of_mem _ hz2)⟩
    · simp only [insertStable, h, if_neg, Bool.false_eq_true, not_false_eq_true]
      refine List.Pairwise.cons ?_ (ih hys (fun z hz => hx z (List.mem_cons_of_mem _ hz)))
      intro z hz
      have hz2 := (insertStable_perm le x ys).mem_iff.mp hz
      rcases List.mem_cons.mp hz2 with rfl | hz3
      · rcases htot z y with hzy | hyz
        · exact absurd hzy h
        · exact ⟨hyz, fun hc => absurd hc h⟩
      · exact hy z hz3

theorem pairwise_stableSort {α : Type} {le : α → α → Bool}
    (htrans : ∀ a b c, le a b = true → le b c = true → le a c = true)
    (htot : ∀ a b, le a b = true ∨ le b a = true)
    {S : α → α → Prop} (l : List α) (hS : l.Pairwise S) :
    (stableSort le l).Pairwise (fun a b => le a b = true ∧ (le b a = true → S a b)) := by
  induction l with
  | nil => simp [stableSort]
  | cons x xs ih =>
    rcases List.pairwise_cons.mp hS with ⟨hx, hxs⟩
    exact pairwise_insertStable htrans htot x (stableSort le xs) (ih hxs)
      (fun y hy => hx y ((mem_stableSort le xs y).mp hy))

theorem pairwise_true {α : Type} (l : List α) : l.Pairwise (fun _ _ => True) := by
  induction l with
  | nil => exact List.Pairwise.nil
  | cons x xs ih => exact List.Pairwise.cons (fun _ _ => trivial) ih

/-! ## search_docs.py: deduplicate_results

Rows reaching deduplication carry file_path and a float _distance read with
result.get and an infinite default; the missing case is modelled by Option
with the order of WithTop. -/

/-- A search result row as deduplicate_results reads it. -/
structure SRow where
  file_path : String
  chunk_index : Nat
  text : List Char
  _distance : Option ℚ
deriving Repr, DecidableEq

/-- result.get of _distance with the float(inf) default. -/
def distOf (r : SRow) : WithTop ℚ :=
  match r._distance with
  | some q => (q : WithTop ℚ)
  | none => ⊤

/-- One iteration of the seen-dict loop: insert a new path at the end, or
replace the kept row in place when the new one is strictly closer. -/
def dedupStep (seen : List (String × SRow)) (result : SRow) : List (String × SRow) :=
  match seen.find? (fun p => p.1 == result.file_path) with
  | none => seen ++ [(result.file_path, result)]
  | some p =>
    if distOf result < distOf p.2 then
      seen.map (fun q => if q.1 == result.file_path then (q.1, result) else q)
    else seen

/-- deduplicate_results: best chunk per file, sorted ascending by distance,
truncated to the limit. -/
def deduplicate_results (results : List SRow) (limit : Nat) : List SRow :=
  let seen := results.foldl dedupStep []
  (stableSort (fun a b => decide (distOf a ≤ distOf b)) (seen.map Prod.snd)).take limit

/-- Invariant of the seen dict against the processed prefix: keys are
unique, each value sits under its own path, every processed path has an
entry, and each kept row is the earliest minimal-distance row of its path. -/
def SeenInv (pfx : List SRow) (seen : List (String × SRow)) : Prop :=
  (seen.map Prod.fst).Nodup ∧
  (∀ e ∈ seen, e.2.file_path = e.1) ∧
  (∀ u ∈ pfx, ∃ e ∈ seen, e.1 = u.file_path) ∧
  (∀ e ∈ seen, ∃ pre post, pfx = pre ++ e.2 :: post ∧
    (∀ u ∈ pfx, u.file_path = e.1 → distOf e.2 ≤ distOf u) ∧
    (∀ u ∈ pre, u.file_path = e.1 → distOf e.2 < distOf u))

theorem nodup_fst_inj {l : List (String × SRow)} (h : (l.map Prod.fst).Nodup)
    {e e2 : String × SRow} (he : e ∈ l) (he2 : e2 ∈ l) (hfst : e.1 = e2.1) : e = e2 := by
  induction l with
  | nil => cases he
  | cons x xs ih =>
    rw [List.map_cons] at h
    rcases List.nodup_cons.mp h with ⟨hx, hxs⟩
    rcases List.mem_cons.mp he with rfl | he' <;> rcases List.mem_cons.mp he2 with rfl | he2'
    · rfl
    · exfalso; apply hx; rw [hfst]; exact List.mem_map_of_mem Prod.fst he2'
    · exfalso; apply hx; rw [← hfst]; exact List.mem_map_of_mem Prod.fst he'
    · exact ih hxs he' he2'

theorem seenInv_step (pfx : List SRow) (seen : List (String × SRow)) (r : SRow)
    (h : SeenInv pfx seen) : SeenInv (pfx ++ [r]) (dedupStep seen r) := by
  obtain ⟨hnd, hpath, hcov, hmin⟩ := h
  unfold dedupStep
  cases hf : seen.find? (fun p => p.1 == r.file_path) with
  | none =>
    have habs : ∀ e ∈ seen, e.1 ≠ r.file_path := by
      intro e he
      simpa using List.find?_eq_none.mp hf e he
    refine ⟨?_, ?_, ?_, ?_⟩
    · rw [List.map_append]
      refine List.Nodup.append hnd (by simp) ?_
      intro a ha hb
      obtain ⟨e, he, rfl⟩ := List.mem_map.mp ha
      simp only [List.map_cons, List.map_nil, List.mem_singleton] at hb
      exact habs e he hb
    · intro e he
      rcases List.mem_append.mp he with he' | he'
      · exact hpath e he'
      · simp only [List.mem_singleton] at he'
        subst he'
        rfl
    · intro u hu
      rcases List.mem_append.mp hu with hu' | hu'
      · obtain ⟨e, he, hkey⟩ := hcov u hu'
        exact ⟨e, List.mem_append_left _ he, hkey⟩
      · simp only [List.mem_singleton] at hu'
        subst hu'
        exact ⟨(u.file_path, u), List.mem_append_right _ (by simp), rfl⟩
    · intro e he
      rcases List.mem_append.mp he with he' | he'
      · obtain ⟨pre, post, heq, hle, hstrict⟩ := hmin e he'
        refine ⟨pre, post ++ [r], by rw [heq]; simp, ?_, hstrict⟩
        intro u hu hup
        rcases List.mem_append.mp hu with hu' | hu'
        · exact hle u hu' hup
        · simp only [List.mem_singleton] at hu'
          subst hu'
          exact absurd hup.symm (habs e he')
      · simp only [List.mem_singleton] at he'
        subst he'
        refine ⟨pfx, [], rfl, ?_, ?_⟩
        · intro u hu hup
          rcases List.mem_append.mp hu with hu' | hu'
          · obtain ⟨e2, he2, hkey2⟩ := hcov u hu'
            exact absurd (hkey2.trans hup) (habs e2 he2)
          · simp only [List.mem_singleton] at hu'
            subst hu'
            exact le_refl _
        · intro u hu hup
          obtain ⟨e2, he2, hkey2⟩ := hcov u hu
          exact absurd (hkey2.trans hup) (habs e2 he2)
  | some p =>
    have hpmem : p ∈ seen := List.mem_of_find?_eq_some hf
    have hpkey : p.1 = r.file_path := by simpa using List.find?_some hf
    dsimp only
    by_cases hlt : distOf r < distOf p.2
    · rw [if_pos hlt]
      have hfst : ∀ q : String × SRow,
          (if q.1 == r.file_path then (q.1, r) else q).1 = q.1 := by
        intro q
        by_cases hq : q.1 = r.file_path <;> simp [hq]
      have hkeys : (seen.map (fun q => if q.1 == r.file_path then (q.1, r) else q)).map
          Prod.fst = seen.map Prod.fst := by
        rw [List.map_map]
        exact List.map_congr_left (fun q _ => hfst q)
      refine ⟨by rw [hkeys]; exact hnd, ?_, ?_, ?_⟩
      · intro e2 he2
        obtain ⟨q, hq, rfl⟩ := List.mem_map.mp he2
        by_cases hqk : q.1 = r.file_path
        · have hbeq : (q.1 == r.file_path) = true := beq_iff_eq.mpr hqk
          simp only [hbeq, if_true]
          exact hqk.symm
        · have hbeq : (q.1 == r.file_path) = false := beq_eq_false_iff_ne.mpr hqk
          simp only [hbeq, Bool.false_eq_true, if_false]
          exact hpath q hq
      · intro u hu
        rcases List.mem_append.mp hu with hu2 | hu2
        · obtain ⟨e, he, hkey⟩ := hcov u hu2
          exact ⟨_, List.mem_map_of_mem _ he, (hfst e).trans hkey⟩
        · simp only [List.mem_singleton] at hu2
          subst hu2
          exact ⟨_, List.mem_map_of_mem _ hpmem, (hfst p).trans hpkey⟩
      · intro e2 he2
        obtain ⟨q, hq, rfl⟩ := List.mem_map.mp he2
        by_cases hqk : q.1 = r.file_path
        · have hbeq : (q.1 == r.file_path) = true := beq_iff_eq.mpr hqk
          have hqp : q = p := nodup_fst_inj hnd hq hpmem (hqk.trans hpkey.symm)
          obtain ⟨pre0, post0, heq0, hle0, hstrict0⟩ := hmin q hq
          have hltq : distOf r < distOf q.2 := by rw [hqp]; exact hlt
          simp only [hbeq, if_true]
          refine ⟨pfx, [], rfl, ?_, ?_⟩
          · intro u hu hup
            rcases List.mem_append.mp hu with hu2 | hu2
            · exact le_of_lt (lt_of_lt_of_le hltq (hle0 u hu2 hup))
            · simp only [List.mem_singleton] at hu2
              subst hu2
              exact le_refl _
          · intro u hu hup
            exact lt_of_lt_of_le hltq (hle0 u hu hup)
        · have hbeq : (q.1 == r.file_path) = false := beq_eq_false_iff_ne.mpr hqk
          simp only [hbeq, Bool.false_eq_true, if_false]
          obtain ⟨pre0, post0, heq0, hle0, hstrict0⟩ := hmin q hq
          refine ⟨pre0, post0 ++ [r], by rw [heq0]; simp, ?_, hstrict0⟩
          intro u hu hup
          rcases List.mem_append.mp hu with hu2 | hu2
          · exact hle0 u hu2 hup
          · simp only [List.mem_singleton] at hu2
            subst hu2
            exact absurd hup.symm hqk
    · rw [if_neg hlt]
      refine ⟨hnd, hpath, ?_, ?_⟩
      · intro u hu
        rcases List.mem_append.mp hu with hu2 | hu2
        · exact hcov u hu2
        · simp only [List.mem_singleton] at hu2
          subst hu2
          exact ⟨p, hpmem, hpkey⟩
      · intro e he
        obtain ⟨pre0, post0, heq0, hle0, hstrict0⟩ := hmin e he
        refine ⟨pre0, post0 ++ [r], by rw [heq0]; simp, ?_, hstrict0⟩
        intro u hu hup
        rcases List.mem_append.mp hu with hu2 | hu2
        · exact hle0 u hu2 hup
        · simp only [List.mem_singleton] at hu2
          rw [hu2] at hup ⊢
          by_cases hek : e.1 = r.file_path
          · have hep : e = p := nodup_fst_inj hnd he hpmem (hek.trans hpkey.symm)
            rw [hep]
            exact not_lt.mp hlt
          · exact absurd hup.symm hek

theorem seenInv_foldl (l : List SRow) : ∀ (pfx : List SRow) (seen : List (String × SRow)),
    SeenInv pfx seen → SeenInv (pfx ++ l) (l.foldl dedupStep seen) := by
  induction l with
  | nil =>
    intro pfx seen h
    simpa using h
  | cons x xs ih =>
    intro pfx seen h
    have h3 := ih (pfx ++ [x]) (dedupStep seen x) (seenInv_step pfx seen x h)
    simpa [List.append_assoc] using h3

theorem seenInv_results (results : List SRow) :
    SeenInv results (results.foldl dedupStep []) := by
  have h0 : SeenInv ([] : List SRow) [] :=
    ⟨by simp, by simp, by simp, by simp⟩
  simpa using seenInv_foldl results [] [] h0

/-- The deduplication contract: one row per path, ascending distances,
truncation to the limit, and each returned row is the earliest
minimal-distance input row of its path. -/
def DedupOk (results : List SRow) (limit : Nat) : Prop :=
  ((deduplicate_results results limit).map SRow.file_path).Nodup ∧
  (deduplicate_results results limit).Pairwise (fun a b => distOf a ≤ distOf b) ∧
  (deduplicate_results results limit).length ≤ limit ∧
  ∀ r ∈ deduplicate_results results limit,
    ∃ pre post, results = pre ++ r :: post ∧
      (∀ u ∈ results, u.file_path = r.file_path → distOf r ≤ distOf u) ∧
      (∀ u ∈ pre, u.file_path = r.file_path → distOf r < distOf u)

/-- C4: deduplicate_results keeps at most one row per file_path, the kept
row minimises _distance with ties to the first occurrence, and the output
is sorted ascending by _distance and truncated to the limit. -/
theorem dedup_contract (results : List SRow) (limit : Nat) : DedupOk results limit := by
  obtain ⟨hnd, hpath, hcov, hmin⟩ := seenInv_results results
  have htrans : ∀ a b c : SRow, decide (distOf a ≤ distOf b) = true →
      decide (distOf b ≤ distOf c) = true → decide (distOf a ≤ distOf c) = true := by
    intro a b c h1 h2
    exact decide_eq_true (le_trans (of_decide_eq_true h1) (of_decide_eq_true h2))
  have htot : ∀ a b : SRow, decide (distOf a ≤ distOf b) = true ∨
      decide (distOf b ≤ distOf a) = true := by
    intro a b
    exact (le_total (distOf a) (distOf b)).imp decide_eq_true decide_eq_true
  have hperm := stableSort_perm (fun a b => decide (distOf a ≤ distOf b))
    ((results.foldl dedupStep []).map Prod.snd)
  have hvalpaths : ((results.foldl dedupStep []).map Prod.snd).map SRow.file_path
      = (results.foldl dedupStep []).map Prod.fst := by
    rw [List.map_map]
    exact List.map_congr_left (fun e he => hpath e he)
  refine ⟨?_, ?_, ?_, ?_⟩
  · have hsortnd : ((stableSort (fun a b => decide (distOf a ≤ distOf b))
        ((results.foldl dedupStep []).map Prod.snd)).map SRow.file_path).Nodup := by
      refine ((hperm.map SRow.file_path).nodup_iff).mpr ?_
      rw [hvalpaths]
      exact hnd
    have := hsortnd.sublist ((List.take_sublist limit _).map SRow.file_path)
    simpa [deduplicate_results] using this
  · have hsorted := (pairwise_stableSort htrans htot
      ((results.foldl dedupStep []).map Prod.snd)
      (pairwise_true _)).imp (fun h => of_decide_eq_true h.1)
    have := hsorted.sublist (List.take_sublist limit _)
    simpa [deduplicate_results] using this
  · simp only [deduplicate_results, List.length_take]
    exact min_le_left _ _
  · intro r hr
    have hr2 : r ∈ stableSort (fun a b => decide (distOf a ≤ distOf b))
        ((results.foldl dedupStep []).map Prod.snd) := by
      simp only [deduplicate_results] at hr
      exact List.mem_of_mem_take hr
    have hr3 : r ∈ (results.foldl dedupStep []).map Prod.snd := hperm.mem_iff.mp hr2
    obtain ⟨e, he, hre⟩ := List.mem_map.mp hr3
    obtain ⟨pre, post, heq, hle, hstrict⟩ := hmin e he
    have hkey : r.file_path = e.1 := by rw [← hre]; exact hpath e he
    refine ⟨pre, post, by rw [heq, hre], ?_, ?_⟩
    · intro u hu hup
      rw [← hre]
      exact hle u hu (hup.trans hkey)
    · intro u hu hup
      rw [← hre]
      exact hstrict u hu (hup.trans hkey)

/-! ## bm25_search.py

The scores are reals because idf uses math.log; everything around the log
is exact. The sort key is the score, descending, with Python sort
stability. -/

/-- One character of the regex class of letters and digits. -/
def isAlnumAscii (c : Char) : Bool :=
  ('a' ≤ c && c ≤ 'z') || ('A' ≤ c && c ≤ 'Z') || ('0' ≤ c && c ≤ '9')

/-- Scanner for re.findall of maximal alphanumeric runs. Fuel is the
remaining length. -/
def alnumRunsAux : Nat → List Char → List (List Char)
  | _, [] => []
  | 0, _ => []
  | fuel + 1, c :: rest =>
    if isAlnumAscii c then
      (c :: rest.takeWhile isAlnumAscii) :: alnumRunsAux fuel (rest.dropWhile isAlnumAscii)
    else alnumRunsAux fuel rest

/-- re.findall of alphanumeric runs over a string. -/
def alnumRuns (s : List Char) : List (List Char) := alnumRunsAux s.length s

/-- The fixed stop-word set of bm25_search.py. -/
def STOPWORDS : List (List Char) :=
  (["a", "an", "the", "and", "or", "but", "in", "on",
    "at", "to", "for", "of", "with", "by", "from", "as",
    "is", "was", "are", "were", "be", "been", "being", "have",
    "has", "had", "do", "does", "did", "will", "would", "shall",
    "should", "may", "might", "must", "can", "could", "not", "no",
    "nor", "so", "if", "then", "than", "too", "very", "just",
    "about", "above", "after", "again", "all", "also", "am", "any",
    "because", "before", "between", "both", "each", "few", "here", "how",
    "into", "it", "its", "me", "more", "most", "my", "new",
    "now", "only", "other", "our", "out", "own", "re", "same",
    "she", "he", "some", "such", "that", "their", "them", "there",
    "these", "they", "this", "those", "through", "under", "until", "up",
    "we", "what", "when", "where", "which", "while", "who", "whom",
    "why", "you", "your"] : List String).map String.toList

/-- tokenize: lowercase, alphanumeric runs, drop stop words and tokens of
length at most one. -/
def tokenize (text : List Char) : List (List Char) :=
  (alnumRuns (text.map Char.toLower)).filter
    (fun t => !(STOPWORDS.contains t) && t.length > 1)

example : tokenize "The vector database!".toList = ["vector".toList, "database".toList] := by
  decide

/-- One chunk row as the BM25 corpus and the hybrid merge read it. -/
structure CRow where
  text : List Char
  file_path : String
  chunk_index : Nat
  total_chunks : Nat
  file_hash : String
deriving Repr, DecidableEq

/-- Counter lookup: occurrences of term among the tokens. -/
def tfCount (tokens : List (List Char)) (term : List Char) : Nat :=
  (tokens.filter (fun t => t == term)).length

/-- The df counter of bm25_search: one increment per document containing
the term per occurrence of the term in the query token list. -/
def dfCount (doc_tokens : List (List (List Char))) (query_tokens : List (List Char))
    (term : List Char) : Nat :=
  (doc_tokens.filter (fun toks => toks.contains term)).length
    * (query_tokens.filter (fun t => t == term)).length

/-- The idf formula; the argument of the log is (N+1)/(n+0.5), always
positive. -/
noncomputable def idfOf (N n : Nat) : ℝ :=
  Real.log ((((N : ℝ) - (n : ℝ) + 1/2) / ((n : ℝ) + 1/2)) + 1)

/-- BM25 score of one document: sum over query token occurrences present in
the document of idf times the normalised term frequency. -/
noncomputable def scoreDoc (N : Nat) (df : List Char → Nat) (avg_dl : ℝ)
    (query_tokens : List (List Char)) (tokens : List (List Char)) : ℝ :=
  if tokens = [] then 0
  else
    let k1 : ℝ := 1.5
    let b : ℝ := 0.75
    (query_tokens.map (fun term =>
      if tfCount tokens term = 0 then 0
      else
        idfOf N (df term) * ((tfCount tokens term : ℝ) * (k1 + 1)) /
          ((tfCount tokens term : ℝ) + k1 * (1 - b + b * (tokens.length : ℝ) / avg_dl)))).sum

/-- bm25_search: empty guards, tokenize, score every document, keep
strictly positive scores with their indices, sort descending by score
(stable), truncate to top_n. -/
noncomputable def bm25_search (query : List Char) (documents : List CRow) (top_n : Nat) :
    List (Nat × ℝ) :=
  if documents = [] ∨ query = [] then []
  else
    let query_tokens := tokenize query
    if query_tokens = [] then []
    else
      let doc_tokens := documents.map (fun d => tokenize d.text)
      let doc_lengths := doc_tokens.map List.length
      let avg_dl : ℝ :=
        if doc_lengths = [] then 1 else ((doc_lengths.sum : ℝ) / (doc_lengths.length : ℝ))
      let N := documents.length
      let df := fun term => dfCount doc_tokens query_tokens term
      let scores := doc_tokens.map (fun toks => scoreDoc N df avg_dl query_tokens toks)
      (stableSort (fun a b => decide (b.2 ≤ a.2))
        (scores.enum.filter (fun p => decide (0 < p.2)))).take top_n

theorem pairwise_enumFrom {α : Type} (l : List α) :
    ∀ n : Nat, (List.enumFrom n l).Pairwise (fun a b => a.1 < b.1) := by
  induction l with
  | nil => intro n; exact List.Pairwise.nil
  | cons x xs ih =>
    intro n
    refine List.Pairwise.cons ?_ (ih (n + 1))
    rintro ⟨i, x⟩ hb
    have := (List.mk_mem_enumFrom_iff_le_and_getElem?_sub.mp hb).1
    omega

theorem pairwise_enum {α : Type} (l : List α) :
    l.enum.Pairwise (fun a b => a.1 < b.1) :=
  pairwise_enumFrom l 0

theorem bm25_sorted_output (scores : List ℝ) (n : Nat) :
    ((stableSort (fun a b : Nat × ℝ => decide (b.2 ≤ a.2))
        (scores.enum.filter (fun p => decide (0 < p.2)))).take n).Pairwise
      (fun a b => b.2 < a.2 ∨ (a.2 = b.2 ∧ a.1 < b.1)) := by
  have htrans : ∀ a b c : Nat × ℝ, decide (b.2 ≤ a.2) = true →
      decide (c.2 ≤ b.2) = true → decide (c.2 ≤ a.2) = true := by
    intro a b c h1 h2
    exact decide_eq_true (le_trans (of_decide_eq_true h2) (of_decide_eq_true h1))
  have htot : ∀ a b : Nat × ℝ, decide (b.2 ≤ a.2) = true ∨ decide (a.2 ≤ b.2) = true := by
    intro a b
    exact (le_total (b.2) (a.2)).imp decide_eq_true decide_eq_true
  have hin : (scores.enum.filter (fun p => decide (0 < p.2))).Pairwise
      (fun a b : Nat × ℝ => a.1 < b.1) :=
    (pairwise_enum scores).sublist (List.filter_sublist _)
  have hout := pairwise_stableSort htrans htot _ hin
  refine (hout.sublist (List.take_sublist n _)).imp ?_
  rintro a b ⟨h1, h2⟩
  have hba : b.2 ≤ a.2 := of_decide_eq_true h1
  rcases lt_or_eq_of_le hba with hlt | heq
  · exact Or.inl hlt
  · exact Or.inr ⟨heq.symm, h2 (decide_eq_true (le_of_eq heq.symm))⟩

/-- Every branch of bm25_search is empty or sort-filter-take over some
score list. -/
theorem bm25_search_cases (q : List Char) (docs : List CRow) (n : Nat) :
    bm25_search q docs n = [] ∨
    ∃ scores : List ℝ, bm25_search q docs n
      = (stableSort (fun a b => decide (b.2 ≤ a.2))
          (scores.enum.filter (fun p => decide (0 < p.2)))).take n := by
  simp only [bm25_search]
  split
  · exact Or.inl rfl
  · split
    · exact Or.inl rfl
    · exact Or.inr ⟨_, rfl⟩

/-- The BM25 result contract of the spec. -/
def Bm25Ok (query : List Char) (documents : List CRow) (top_n : Nat) : Prop :=
  (∀ e ∈ bm25_search query documents top_n, 0 < e.2) ∧
  (bm25_search query documents top_n).Pairwise
    (fun a b => b.2 < a.2 ∨ (a.2 = b.2 ∧ a.1 < b.1)) ∧
  (bm25_search query documents top_n).length ≤ top_n ∧
  bm25_search [] documents top_n = [] ∧
  bm25_search query [] top_n = []

/-- C5: bm25_search returns only entries with score strictly above zero,
sorted descending by score with ties in insertion (index) order, truncated
to top_n; empty query or empty corpus give the empty result. -/
theorem bm25_contract (query : List Char) (documents : List CRow) (top_n : Nat) :
    Bm25Ok query documents top_n := by
  have hemp1 : bm25_search [] documents top_n = [] := by simp [bm25_search]
  have hemp2 : bm25_search query [] top_n = [] := by simp [bm25_search]
  rcases bm25_search_cases query documents top_n with hc | ⟨scores, hc⟩
  · exact ⟨by rw [hc]; simp, by rw [hc]; simp, by rw [hc]; simp, hemp1, hemp2⟩
  · refine ⟨?_, ?_, ?_, hemp1, hemp2⟩
    · intro e he
      rw [hc] at he
      have h2 : e ∈ stableSort (fun a b : Nat × ℝ => decide (b.2 ≤ a.2))
          (scores.enum.filter (fun p => decide (0 < p.2))) := List.mem_of_mem_take he
      have h3 : e ∈ scores.enum.filter (fun p => decide (0 < p.2)) :=
        (stableSort_perm _ _).mem_iff.mp h2
      have h4 := List.of_mem_filter h3
      simpa using h4
    · rw [hc]
      exact bm25_sorted_output scores top_n
    · rw [hc, List.length_take]
      exact min_le_left _ _

/-! ## hybrid_search.py -/

/-- The merge key: file_path, two colons, chunk_index. -/
def resultKey (fp : String) (ci : Nat) : String := fp ++ "::" ++ toString ci

/-- Key of a vector result row. -/
def keyOfS (r : SRow) : String := resultKey r.file_path r.chunk_index

/-- Key of a chunk row. -/
def keyOfC (c : CRow) : String := resultKey c.file_path c.chunk_index

/-- A merged output row: the input row enriched with rrf_score. -/
structure HRow where
  file_path : String
  chunk_index : Nat
  text : List Char
  _distance : Option ℚ
  rrf_score : ℚ
deriving Repr, DecidableEq

/-- Key of a merged row. -/
def keyOfH (r : HRow) : String := resultKey r.file_path r.chunk_index

/-- Python all_chunks[idx]; bm25 indices are always in range, so the
default is never read. -/
def chunkAt (cs : List CRow) (i : Nat) : CRow :=
  (cs.get? i).getD ⟨[], "", 0, 1, ""⟩

/-- One dict accumulation rrf[key] = rrf.get(key, 0) + 1/(k + rank + 1),
the dict as a function with default zero. -/
def rrfUpdate (k : Nat) (m : String → ℚ) (p : Nat × String) : String → ℚ :=
  Function.update m p.2 (m p.2 + 1 / ((k : ℚ) + p.1 + 1))

/-- The rrf_scores dict after both accumulation loops: vector results by
rank, then BM25 results by rank keyed through the chunk list. -/
noncomputable def rrfScores (k : Nat) (query : List Char) (vs : List SRow)
    (chunks : List CRow) : String → ℚ :=
  let bm := bm25_search query chunks 50
  let m1 := (vs.enum.map (fun p => (p.1, keyOfS p.2))).foldl (rrfUpdate k) (fun _ => 0)
  (bm.enum.map (fun p => (p.1, keyOfC (chunkAt chunks p.2.1)))).foldl (rrfUpdate k) m1

/-- Python dict assignment d[key] = v: replace in place or append. -/
def assocUpdate (l : List (String × CRow)) (key : String) (v : CRow) :
    List (String × CRow) :=
  if l.any (fun p => p.1 == key) then
    l.map (fun p => if p.1 == key then (p.1, v) else p)
  else l ++ [(key, v)]

/-- The bm25_lookup dict in bm25 rank order. -/
noncomputable def bm25Lookup (query : List Char) (chunks : List CRow) :
    List (String × CRow) :=
  (bm25_search query chunks 50).foldl
    (fun acc p => assocUpdate acc (keyOfC (chunkAt chunks p.1)) (chunkAt chunks p.1)) []

/-- The combined candidate list before sorting: every vector result in
order, enriched with its rrf score, then every BM25-only key with the
sentinel distance 2.0. -/
noncomputable def hybridCandidates (query : List Char) (vs : List SRow)
    (chunks : List CRow) (k : Nat) : List HRow :=
  let rrf := rrfScores k query vs chunks
  let seen := vs.map keyOfS
  vs.map (fun r => ⟨r.file_path, r.chunk_index, r.text, r._distance, rrf (keyOfS r)⟩) ++
    ((bm25Lookup query chunks).filter (fun p => !(seen.contains p.1))).map
      (fun p => ⟨p.2.file_path, p.2.chunk_index, p.2.text, some 2, rrf p.1⟩)

/-- hybrid_merge: empty vector results give the empty list; an empty chunk
scan annotates rrf_score zero and truncates; otherwise sort the candidates
by rrf_score descending (stable) and truncate to top_n. -/
noncomputable def hybrid_merge (query : List Char) (vector_results : List SRow)
    (all_chunks : List CRow) (top_n k : Nat) : List HRow :=
  if vector_results = [] then []
  else if all_chunks = [] then
    (vector_results.map (fun r =>
      ⟨r.file_path, r.chunk_index, r.text, r._distance, 0⟩)).take top_n
  else
    (stableSort (fun a b => decide (b.rrf_score ≤ a.rrf_score))
      (hybridCandidates query vector_results all_chunks k)).take top_n

/-- The RRF sum of the spec: one reciprocal term per participation of the
key in the vector ranking and in the BM25 ranking, zero-based ranks. -/
noncomputable def rrfSpec (k : Nat) (query : List Char) (vs : List SRow)
    (chunks : List CRow) (key : String) : ℚ :=
  ((vs.enum.filter (fun p => keyOfS p.2 == key)).map
      (fun p => 1 / ((k : ℚ) + p.1 + 1))).sum +
  (((bm25_search query chunks 50).enum.filter
      (fun p => keyOfC (chunkAt chunks p.2.1) == key)).map
      (fun p => 1 / ((k : ℚ) + p.1 + 1))).sum

theorem foldl_rrfUpdate_apply (k : Nat) (L : List (Nat × String)) (base : String → ℚ)
    (key : String) :
    (L.foldl (rrfUpdate k) base) key
      = base key
        + ((L.filter (fun p => p.2 == key)).map (fun p => 1 / ((k : ℚ) + p.1 + 1))).sum := by
  induction L generalizing base with
  | nil => simp
  | cons p L ih =>
    rw [List.foldl_cons, ih]
    by_cases hk : p.2 = key
    · have hbeq : (p.2 == key) = true := beq_iff_eq.mpr hk
      rw [List.filter_cons]
      simp only [hbeq, if_true, List.map_cons, List.sum_cons]
      rw [rrfUpdate]
      rw [hk, Function.update_same]
      ring
    · have hbeq : (p.2 == key) = false := beq_eq_false_iff_ne.mpr hk
      rw [List.filter_cons]
      simp only [hbeq, Bool.false_eq_true, if_false]
      rw [rrfUpdate, Function.update_noteq (Ne.symm hk)]

theorem rrfScores_eq_spec (k : Nat) (query : List Char) (vs : List SRow)
    (chunks : List CRow) (key : String) :
    rrfScores k query vs chunks key = rrfSpec k query vs chunks key := by
  simp only [rrfScores, rrfSpec]
  rw [foldl_rrfUpdate_apply, foldl_rrfUpdate_apply]
  rw [List.filter_map, List.filter_map, List.map_map, List.map_map]
  simp [Function.comp_def]

theorem bm25Lookup_key (query : List Char) (chunks : List CRow) :
    ∀ e ∈ bm25Lookup query chunks, e.1 = keyOfC e.2 := by
  rw [bm25Lookup]
  have key : ∀ (bm : List (Nat × ℝ)) (acc : List (String × CRow)),
      (∀ e ∈ acc, e.1 = keyOfC e.2) →
      ∀ e ∈ bm.foldl (fun acc p =>
          assocUpdate acc (keyOfC (chunkAt chunks p.1)) (chunkAt chunks p.1)) acc,
        e.1 = keyOfC e.2 := by
    intro bm
    induction bm with
    | nil => intro acc h; exact h
    | cons p bm ih =>
      intro acc h
      rw [List.foldl_cons]
      refine ih _ ?_
      intro e he
      rw [assocUpdate] at he
      split at he
      · obtain ⟨q, hq, rfl⟩ := List.mem_map.mp he
        by_cases hqk : q.1 = keyOfC (chunkAt chunks p.1)
        · have hbeq : (q.1 == keyOfC (chunkAt chunks p.1)) = true := beq_iff_eq.mpr hqk
          simp only [hbeq, if_true]
          exact hqk
        · have hbeq : (q.1 == keyOfC (chunkAt chunks p.1)) = false :=
            beq_eq_false_iff_ne.mpr hqk
          simp only [hbeq, Bool.false_eq_true, if_false]
          exact h q hq
      · rcases List.mem_append.mp he with he2 | he2
        · exact h e he2
        · simp only [List.mem_singleton] at he2
          subst he2
          rfl
  exact key _ [] (by simp)

/-- C3: for every query, non-empty vector result list, top_n and k, when the
chunk scan is non-empty every emitted row carries rrf_score equal to the sum
of 1/(k + rank + 1) over that key's participations in the vector and BM25
rankings, and the emitted rows are in monotone non-increasing rrf_score
order; every vector-result key appears in the output provided top_n is at
least the number of candidate rows; when the chunk scan is empty every
emitted row instead carries rrf_score 0. -/
theorem hybrid_merge_spec (query : List Char) (vs : List SRow) (chunks : List CRow)
    (top_n k : Nat) (hvs : vs ≠ []) :
    (chunks ≠ [] →
      (∀ r ∈ hybrid_merge query vs chunks top_n k,
          r.rrf_score = rrfSpec k query vs chunks (keyOfH r)) ∧
      (hybrid_merge query vs chunks top_n k).Pairwise
        (fun a b => b.rrf_score ≤ a.rrf_score) ∧
      ((hybridCandidates query vs chunks k).length ≤ top_n →
        ∀ r ∈ vs, ∃ r2 ∈ hybrid_merge query vs chunks top_n k,
          keyOfH r2 = keyOfS r)) ∧
    (chunks = [] →
      ∀ r ∈ hybrid_merge query vs chunks top_n k, r.rrf_score = 0) := by
  constructor
  · intro hch
    have hmain : hybrid_merge query vs chunks top_n k
        = (stableSort (fun a b => decide (b.rrf_score ≤ a.rrf_score))
            (hybridCandidates query vs chunks k)).take top_n := by
      rw [hybrid_merge, if_neg hvs, if_neg hch]
    have hperm := stableSort_perm (fun a b : HRow => decide (b.rrf_score ≤ a.rrf_score))
      (hybridCandidates query vs chunks k)
    have hcand : ∀ r ∈ hybridCandidates query vs chunks k,
        r.rrf_score = rrfSpec k query vs chunks (keyOfH r) := by
      intro r hr
      simp only [hybridCandidates] at hr
      rcases List.mem_append.mp hr with hr2 | hr2
      · obtain ⟨v, hv, rfl⟩ := List.mem_map.mp hr2
        exact rrfScores_eq_spec k query vs chunks _
      · obtain ⟨p, hp, rfl⟩ := List.mem_map.mp hr2
        have hpk : p.1 = keyOfC p.2 :=
          bm25Lookup_key query chunks p (List.mem_of_mem_filter hp)
        have : keyOfH ⟨p.2.file_path, p.2.chunk_index, p.2.text, some 2,
            rrfScores k query vs chunks p.1⟩ = p.1 := by
          rw [hpk]
          rfl
        rw [this]
        exact rrfScores_eq_spec k query vs chunks _
    refine ⟨?_, ?_, ?_⟩
    · intro r hr
      rw [hmain] at hr
      have hr2 : r ∈ stableSort (fun a b => decide (b.rrf_score ≤ a.rrf_score))
          (hybridCandidates query vs chunks k) :=
        (List.take_sublist _ _).subset hr
      exact hcand r (hperm.mem_iff.mp hr2)
    · rw [hmain]
      have htrans : ∀ a b c : HRow, decide (b.rrf_score ≤ a.rrf_score) = true →
          decide (c.rrf_score ≤ b.rrf_score) = true →
          decide (c.rrf_score ≤ a.rrf_score) = true := by
        intro a b c h1 h2
        exact decide_eq_true (le_trans (of_decide_eq_true h2) (of_decide_eq_true h1))
      have htot : ∀ a b : HRow, decide (b.rrf_score ≤ a.rrf_score) = true ∨
          decide (a.rrf_score ≤ b.rrf_score) = true := by
        intro a b
        exact (le_total b.rrf_score a.rrf_score).imp decide_eq_true decide_eq_true
      have hpw := (pairwise_stableSort htrans htot
          (hybridCandidates query vs chunks k) (pairwise_true _)).imp
        (fun h => of_decide_eq_true h.1)
      exact hpw.sublist (List.take_sublist _ _)
    · intro hn r hr
      have htake : (stableSort (fun a b : HRow => decide (b.rrf_score ≤ a.rrf_score))
            (hybridCandidates query vs chunks k)).take top_n
          = stableSort (fun a b : HRow => decide (b.rrf_score ≤ a.rrf_score))
              (hybridCandidates query vs chunks k) := by
        refine List.take_of_length_le ?_
        rw [hperm.length_eq]
        exact hn
      refine ⟨⟨r.file_path, r.chunk_index, r.text, r._distance,
        rrfScores k query vs chunks (keyOfS r)⟩, ?_, rfl⟩
      rw [hmain, htake]
      refine hperm.mem_iff.mpr ?_
      simp only [hybridCandidates]
      exact List.mem_append_left _ (List.mem_map_of_mem _ hr)
  · intro hch r hr
    rw [hybrid_merge, if_neg hvs, if_pos hch] at hr
    have hr2 : r ∈ vs.map (fun r : SRow =>
        (⟨r.file_path, r.chunk_index, r.text, r._distance, 0⟩ : HRow)) :=
      (List.take_sublist _ _).subset hr
    obtain ⟨v, hv, rfl⟩ := List.mem_map.mp hr2
    rfl

/-- Concrete inputs for the truncation counterexample. -/
def cexVs : List SRow := [⟨"a", 0, [], some 1⟩, ⟨"b", 0, [], some 1⟩]

/-- A non-empty chunk scan for the counterexample. -/
def cexChunks : List CRow := [⟨['z'], "c", 0, 1, "h"⟩]

/-- Two members of a list of length at most one coincide. -/
theorem mem_eq_of_length_le_one {α : Type} {l : List α} (h : l.length ≤ 1)
    {a b : α} (ha : a ∈ l) (hb : b ∈ l) : a = b := by
  cases l with
  | nil => cases ha
  | cons x xs =>
    cases xs with
    | nil =>
      simp only [List.mem_singleton] at ha hb
      rw [ha, hb]
    | cons y ys => simp at h

/-- C3 counterexample: with top_n = 1 the keys of the two vector results
cannot both appear in the truncated output, so the claimed key coverage
fails as stated. -/
theorem hybrid_merge_claim_cex :
    ¬ (∀ r ∈ cexVs, ∃ r2 ∈ hybrid_merge [] cexVs cexChunks 1 60,
        keyOfH r2 = keyOfS r) := by
  intro h
  obtain ⟨r2, hr2, hkey2⟩ := h ⟨"a", 0, [], some 1⟩ (by simp [cexVs])
  obtain ⟨r3, hr3, hkey3⟩ := h ⟨"b", 0, [], some 1⟩ (by simp [cexVs])
  have hlen : (hybrid_merge [] cexVs cexChunks 1 60).length ≤ 1 := by
    rw [hybrid_merge, if_neg (by simp [cexVs]), if_neg (by simp [cexChunks]),
      List.length_take]
    exact min_le_left _ _
  have heq : r2 = r3 := mem_eq_of_length_le_one hlen hr2 hr3
  rw [heq, hkey3] at hkey2
  have : keyOfS (⟨"b", 0, [], some 1⟩ : SRow) ≠ keyOfS ⟨"a", 0, [], some 1⟩ := by
    decide
  exact this hkey2

/-- Concrete input for the C3 witness. -/
def wVs : List SRow := [⟨"a", 0, ['x'], some 1⟩]

/-- Concrete chunk scan for the C3 witness. -/
def wChunks : List CRow := [⟨['z'], "c", 0, 1, "h"⟩]

/-- C3 witness at a concrete input with the hypothesis discharged. -/
theorem hybrid_merge_spec_witness :
    ∃ r2 ∈ hybrid_merge [] wVs wChunks 5 60,
      keyOfH r2 = keyOfS ⟨"a", 0, ['x'], some 1⟩ :=
  ((hybrid_merge_spec [] wVs wChunks 5 60 (by simp [wVs])).1 (by simp [wChunks])).2.2
    (by rw [show (hybridCandidates [] wVs wChunks 60).length = 1 from rfl]; omega)
    ⟨"a", 0, ['x'], some 1⟩ (by simp [wVs])

/-! ## index_metadata.py

load_metadata reads index_metadata.json and get_file_hash calls os.stat;
the stored metadata and the filesystem (size and integer mtime per existing
path) are parameters. -/

/-- One stored file record; the hash key may be absent. -/
structure FileMeta where
  hash : Option String
deriving Repr, DecidableEq

/-- One per-folder entry of the indexes list. -/
structure IndexEntry where
  id : String
  path : String
  files : List (String × FileMeta)
deriving Repr, DecidableEq

/-- get_file_hash: size underscore mtime-seconds, None for a missing
file. -/
def get_file_hash (fs : String → Option (Nat × Nat)) (filepath : String) : Option String :=
  (fs filepath).map (fun st => toString st.1 ++ "_" ++ toString st.2)

/-- Python dict lookup in the stored files map. -/
def lookupFile (files : List (String × FileMeta)) (p : String) : Option FileMeta :=
  (files.find? (fun e => e.1 == p)).map Prod.snd

/-- The classification loop of get_files_needing_index: new files,
modified files, unchanged files, in descriptor order. -/
def classifyFiles (existing : List (String × FileMeta))
    (fs : String → Option (Nat × Nat)) :
    List String → List String × List String × List String
  | [] => ([], [], [])
  | p :: rest =>
    let r := classifyFiles existing fs rest
    match lookupFile existing p with
    | none => (p :: r.1, r.2.1, r.2.2)
    | some v =>
      if v.hash ≠ get_file_hash fs p then (r.1, p :: r.2.1, r.2.2)
      else (r.1, r.2.1, p :: r.2.2)

/-- get_files_needing_index: no stored entry indexes everything; otherwise
to_index is new then modified files, unchanged those with the matching
hash, deleted the stored paths not described. -/
def get_files_needing_index (metadata : List IndexEntry)
    (fs : String → Option (Nat × Nat)) (folder_path : String)
    (all_files : List String) : List String × List String × List String :=
  match metadata.find? (fun idx => idx.path == folder_path) with
  | none => (all_files, [], [])
  | some e =>
    let c := classifyFiles e.files fs all_files
    (c.1 ++ c.2.1, c.2.2,
      (e.files.map Prod.fst).filter (fun fp => !(all_files.contains fp)))

theorem classify_new_mem (existing : List (String × FileMeta))
    (fs : String → Option (Nat × Nat)) (files : List String) (p : String) :
    p ∈ (classifyFiles existing fs files).1
      ↔ p ∈ files ∧ lookupFile existing p = none := by
  induction files with
  | nil => simp [classifyFiles]
  | cons q rest ih =>
    simp only [classifyFiles]
    cases hq : lookupFile existing q with
    | none =>
      dsimp only
      simp only [List.mem_cons]
      constructor
      · rintro (rfl | hmem)
        · exact ⟨Or.inl rfl, hq⟩
        · rcases ih.mp hmem with ⟨h1, h2⟩
          exact ⟨Or.inr h1, h2⟩
      · rintro ⟨rfl | h1, h2⟩
        · exact Or.inl rfl
        · exact Or.inr (ih.mpr ⟨h1, h2⟩)
    | some v =>
      dsimp only
      by_cases hh : v.hash ≠ get_file_hash fs q
      · rw [if_pos hh]
        rw [ih]
        constructor
        · rintro ⟨h1, h2⟩
          exact ⟨List.mem_cons_of_mem _ h1, h2⟩
        · rintro ⟨hm, h2⟩
          rcases List.mem_cons.mp hm with rfl | h1
          · rw [hq] at h2; cases h2
          · exact ⟨h1, h2⟩
      · rw [if_neg hh]
        rw [ih]
        constructor
        · rintro ⟨h1, h2⟩
          exact ⟨List.mem_cons_of_mem _ h1, h2⟩
        · rintro ⟨hm, h2⟩
          rcases List.mem_cons.mp hm with rfl | h1
          · rw [hq] at h2; cases h2
          · exact ⟨h1, h2⟩

theorem classify_modified_mem (existing : List (String × FileMeta))
    (fs : String → Option (Nat × Nat)) (files : List String) (p : String) :
    p ∈ (classifyFiles existing fs files).2.1
      ↔ p ∈ files ∧ ∃ v, lookupFile existing p = some v ∧ v.hash ≠ get_file_hash fs p := by
  induction files with
  | nil => simp [classifyFiles]
  | cons q rest ih =>
    simp only [classifyFiles]
    cases hq : lookupFile existing q with
    | none =>
      dsimp only
      rw [ih]
      constructor
      · rintro ⟨h1, h2⟩
        exact ⟨List.mem_cons_of_mem _ h1, h2⟩
      · rintro ⟨hm, v, h2, h3⟩
        rcases List.mem_cons.mp hm with rfl | h1
        · rw [hq] at h2; cases h2
        · exact ⟨h1, v, h2, h3⟩
    | some v =>
      dsimp only
      by_cases hh : v.hash ≠ get_file_hash fs q
      · rw [if_pos hh]
        simp only [List.mem_cons]
        constructor
        · rintro (rfl | hmem)
          · exact ⟨Or.inl rfl, v, hq, hh⟩
          · rcases ih.mp hmem with ⟨h1, h2⟩
            exact ⟨Or.inr h1, h2⟩
        · rintro ⟨rfl | h1, w, h2, h3⟩
          · exact Or.inl rfl
          · exact Or.inr (ih.mpr ⟨h1, w, h2, h3⟩)
      · rw [if_neg hh]
        rw [ih]
        constructor
        · rintro ⟨h1, h2⟩
          exact ⟨List.mem_cons_of_mem _ h1, h2⟩
        · rintro ⟨hm, w, h2, h3⟩
          rcases List.mem_cons.mp hm with rfl | h1
          · rw [hq] at h2
            cases h2
            exact absurd h3 hh
          · exact ⟨h1, w, h2, h3⟩

theorem classify_unchanged_mem (existing : List (String × FileMeta))
    (fs : String → Option (Nat × Nat)) (files : List String) (p : String) :
    p ∈ (classifyFiles existing fs files).2.2
      ↔ p ∈ files ∧ ∃ v, lookupFile existing p = some v ∧ v.hash = get_file_hash fs p := by
  induction files with
  | nil => simp [classifyFiles]
  | cons q rest ih =>
    simp only [classifyFiles]
    cases hq : lookupFile existing q with
    | none =>
      dsimp only
      rw [ih]
      constructor
      · rintro ⟨h1, h2⟩
        exact ⟨List.mem_cons_of_mem _ h1, h2⟩
      · rintro ⟨hm, v, h2, h3⟩
        rcases List.mem_cons.mp hm with rfl | h1
        · rw [hq] at h2; cases h2
        · exact ⟨h1, v, h2, h3⟩
    | some v =>
      dsimp only
      by_cases hh : v.hash ≠ get_file_hash fs q
      · rw [if_pos hh]
        rw [ih]
        constructor
        · rintro ⟨h1, h2⟩
          exact ⟨List.mem_cons_of_mem _ h1, h2⟩
        · rintro ⟨hm, w, h2, h3⟩
          rcases List.mem_cons.mp hm with rfl | h1
          · rw [hq] at h2
            cases h2
            exact absurd h3 hh
          · exact ⟨h1, w, h2, h3⟩
      · rw [if_neg hh]
        simp only [List.mem_cons]
        constructor
        · rintro (rfl | hmem)
          · exact ⟨Or.inl rfl, v, hq, not_not.mp hh⟩
          · rcases ih.mp hmem with ⟨h1, h2⟩
            exact ⟨Or.inr h1, h2⟩
        · rintro ⟨rfl | h1, w, h2, h3⟩
          · exact Or.inl rfl
          · exact Or.inr (ih.mpr ⟨h1, w, h2, h3⟩)

/-- The change-detection contract: membership of each returned list as the
spec states it, and the no-entry case. -/
def MetadataCheckOk (metadata : List IndexEntry) (fs : String → Option (Nat × Nat))
    (folder_path : String) (all_files : List String) : Prop :=
  (∀ e, metadata.find? (fun idx => idx.path == folder_path) = some e →
    (∀ p, p ∈ (get_files_needing_index metadata fs folder_path all_files).1
        ↔ p ∈ all_files ∧ (lookupFile e.files p = none ∨
            ∃ v, lookupFile e.files p = some v ∧ v.hash ≠ get_file_hash fs p)) ∧
    (∀ p, p ∈ (get_files_needing_index metadata fs folder_path all_files).2.1
        ↔ p ∈ all_files ∧
            ∃ v, lookupFile e.files p = some v ∧ v.hash = get_file_hash fs p) ∧
    (∀ q, q ∈ (get_files_needing_index metadata fs folder_path all_files).2.2
        ↔ q ∈ e.files.map Prod.fst ∧ q ∉ all_files)) ∧
  (metadata.find? (fun idx => idx.path == folder_path) = none →
    get_files_needing_index metadata fs folder_path all_files = (all_files, [], []))

/-- C7: a described file is classified to_index exactly when its path is
absent from the stored files map or its current fingerprint differs from
the stored hash, unchanged otherwise; deleted is exactly the set of stored
paths not among the described paths; with no stored entry everything is
to_index. -/
theorem metadata_change_detection (metadata : List IndexEntry)
    (fs : String → Option (Nat × Nat)) (folder_path : String)
    (all_files : List String) : MetadataCheckOk metadata fs folder_path all_files := by
  constructor
  · intro e he
    have hg : get_files_needing_index metadata fs folder_path all_files
        = ((classifyFiles e.files fs all_files).1 ++ (classifyFiles e.files fs all_files).2.1,
           (classifyFiles e.files fs all_files).2.2,
           (e.files.map Prod.fst).filter (fun fp => !(all_files.contains fp))) := by
      rw [get_files_needing_index, he]
    refine ⟨?_, ?_, ?_⟩
    · intro p
      rw [hg]
      simp only [List.mem_append]
      rw [classify_new_mem, classify_modified_mem]
      constructor
      · rintro (⟨h1, h2⟩ | ⟨h1, h2⟩)
        · exact ⟨h1, Or.inl h2⟩
        · exact ⟨h1, Or.inr h2⟩
      · rintro ⟨h1, h2 | h2⟩
        · exact Or.inl ⟨h1, h2⟩
        · exact Or.inr ⟨h1, h2⟩
    · intro p
      rw [hg]
      exact classify_unchanged_mem e.files fs all_files p
    · intro q
      rw [hg]
      constructor
      · intro hmem
        refine ⟨List.mem_of_mem_filter hmem, ?_⟩
        intro hq
        have h2 := List.of_mem_filter hmem
        have h4 : all_files.contains q = true := List.elem_iff.mpr hq
        rw [h4] at h2
        simp at h2
      · rintro ⟨h1, h2⟩
        refine List.mem_filter.mpr ⟨h1, ?_⟩
        have h3 : all_files.contains q = false := by
          cases hc : all_files.contains q
          · rfl
          · exact absurd (List.elem_iff.mp hc) h2
        rw [h3]
        rfl
  · intro hnone
    rw [get_files_needing_index, hnone]

/-! ## Chunk length bounds -/

theorem pyStrip_length_le (s : List Char) : (pyStrip s).length ≤ s.length := by
  unfold pyStrip
  calc ((s.dropWhile pyIsSpace).reverse.dropWhile pyIsSpace).reverse.length
      = ((s.dropWhile pyIsSpace).reverse.dropWhile pyIsSpace).length := List.length_reverse _
    _ ≤ (s.dropWhile pyIsSpace).reverse.length := (List.dropWhile_sublist _).length_le
    _ = (s.dropWhile pyIsSpace).length := List.length_reverse _
    _ ≤ s.length := (List.dropWhile_sublist _).length_le

theorem sentBreakSuffix_length_le (l s : List Char) (h : sentBreakSuffix l = some s) :
    s.length ≤ l.length := by
  induction l with
  | nil => cases h
  | cons c rest ih =>
    cases rest with
    | nil => cases h
    | cons d rest2 =>
      rw [sentBreakSuffix] at h
      split at h
      · cases h
        calc ((d :: rest2).dropWhile pyIsSpace).length
            ≤ (d :: rest2).length := (List.dropWhile_sublist _).length_le
          _ ≤ (c :: d :: rest2).length := by simp
      · have := ih h
        calc s.length ≤ (d :: rest2).length := this
          _ ≤ (c :: d :: rest2).length := by simp

theorem afterFirstSpace_length_le (l : List Char) :
    ∀ s, afterFirstSpace l = some s → s.length ≤ l.length := by
  induction l with
  | nil => intro s h; cases h
  | cons c rest ih =>
    intro s h
    rw [afterFirstSpace] at h
    split at h
    · cases h
      simp
    · calc s.length ≤ rest.length := ih s h
        _ ≤ (c :: rest).length := by simp

theorem get_overlap_length_le (t : List Char) (ov : Nat) (hov : 0 < ov) :
    (get_overlap t ov).length ≤ ov := by
  rw [get_overlap]
  split
  · omega
  · rename_i hlen
    have hne : ¬ ov = 0 := by omega
    simp only [if_neg hne]
    have htail : (t.drop (t.length - ov)).length = ov := by
      rw [List.length_drop]
      omega
    cases hs : sentBreakSuffix (t.drop (t.length - ov)) with
    | some s =>
      dsimp only
      have h1 := sentBreakSuffix_length_le _ s hs
      omega
    | none =>
      dsimp only
      cases ha : afterFirstSpace (t.drop (t.length - ov)) with
      | some s =>
        dsimp only
        have h1 := afterFirstSpace_length_le _ s ha
        omega
      | none =>
        dsimp only
        omega

theorem hardSplit_length_le (s : List Char) (cs ov : Nat) :
    ∀ c ∈ hardSplit s cs ov, c.length ≤ cs := by
  intro c hc
  rw [hardSplit] at hc
  split at hc
  · cases hc
  · obtain ⟨i, _, rfl⟩ := List.mem_map.mp hc
    rw [List.length_take]
    exact min_le_left _ _

theorem splitSentencesAux_nil (fuel : Nat) (prev : Option Char) (acc : List Char) :
    splitSentencesAux fuel prev acc [] = [acc.reverse] := by
  cases fuel <;> rfl

theorem splitSentencesAux_piece_le (fuel : Nat) :
    ∀ (prev : Option Char) (acc rest : List Char),
      ∀ piece ∈ splitSentencesAux fuel prev acc rest,
        piece.length ≤ acc.length + rest.length := by
  induction fuel with
  | zero =>
    intro prev acc rest piece hp
    cases rest with
    | nil =>
      rw [splitSentencesAux_nil] at hp
      simp only [List.mem_singleton] at hp
      subst hp
      simp
    | cons c rest2 =>
      have heq : splitSentencesAux 0 prev acc (c :: rest2)
          = [acc.reverse ++ (c :: rest2)] := rfl
      rw [heq] at hp
      simp only [List.mem_singleton] at hp
      subst hp
      simp
  | succ fuel ih =>
    intro prev acc rest piece hp
    cases rest with
    | nil =>
      rw [splitSentencesAux_nil] at hp
      simp only [List.mem_singleton] at hp
      subst hp
      simp
    | cons c rest2 =>
      simp only [splitSentencesAux] at hp
      split at hp
      · rcases List.mem_cons.mp hp with rfl | hp2
        · simp
        · have hrec := ih _ [] _ piece hp2
          have hd : (rest2.drop (rest2.takeWhile pyIsSpace).length).length ≤ rest2.length := by
            rw [List.length_drop]
            omega
          simp only [List.length_nil, List.length_cons] at hrec ⊢
          omega
      · have hrec := ih _ (c :: acc) rest2 piece hp
        simp only [List.length_cons] at hrec ⊢
        omega

theorem slpStep_inv (cs ov L B : Nat) (hov : 0 < ov) (hcs : cs ≤ B)
    (hovB : ov + 1 + L ≤ B) (acc : List (List Char) × List Char) (s : List Char)
    (hsL : s.length ≤ L) (h1 : ∀ c ∈ acc.1, c.length ≤ B) (h2 : acc.2.length ≤ B) :
    (∀ c ∈ (slpStep cs ov acc s).1, c.length ≤ B) ∧ (slpStep cs ov acc s).2.length ≤ B := by
  simp only [slpStep]
  split
  · split
    · rename_i hcur
      dsimp only
      refine ⟨?_, ?_⟩
      · intro c hc
        rcases List.mem_append.mp hc with h | h
        · exact h1 c h
        · simp only [List.mem_singleton] at h
          subst h
          exact le_trans (pyStrip_length_le _) h2
      · split
        · have hole := get_overlap_length_le acc.2 ov hov
          simp only [List.length_append, List.length_cons]
          omega
        · omega
    · dsimp only
      refine ⟨?_, ?_⟩
      · intro c hc
        rcases List.mem_append.mp hc with h | h
        · exact h1 c h
        · exact le_trans (hardSplit_length_le s cs ov c h) hcs
      · simp
  · rename_i hfit
    dsimp only
    refine ⟨h1, ?_⟩
    split
    · simp only [List.length_append, List.length_cons]
      omega
    · omega

theorem slp_fold_inv (cs ov L B : Nat) (hov : 0 < ov) (hcs : cs ≤ B)
    (hovB : ov + 1 + L ≤ B) :
    ∀ (sentences : List (List Char)) (acc : List (List Char) × List Char),
      (∀ s ∈ sentences, s.length ≤ L) →
      (∀ c ∈ acc.1, c.length ≤ B) → acc.2.length ≤ B →
      (∀ c ∈ (sentences.foldl (slpStep cs ov) acc).1, c.length ≤ B) ∧
        (sentences.foldl (slpStep cs ov) acc).2.length ≤ B := by
  intro sentences
  induction sentences with
  | nil =>
    intro acc _ h1 h2
    exact ⟨h1, h2⟩
  | cons s rest ih =>
    intro acc hs h1 h2
    rw [List.foldl_cons]
    have hstep := slpStep_inv cs ov L B hov hcs hovB acc s
      (hs s (List.mem_cons_self _ _)) h1 h2
    exact ih (slpStep cs ov acc s) (fun x hx => hs x (List.mem_cons_of_mem _ hx))
      hstep.1 hstep.2

theorem split_long_paragraph_le (para : List Char) (cs ov : Nat) (hov : 0 < ov) :
    ∀ c ∈ split_long_paragraph para cs ov, c.length ≤ max cs (ov + 1 + para.length) := by
  intro c hc
  have hcs : cs ≤ max cs (ov + 1 + para.length) := le_max_left _ _
  have hovB : ov + 1 + para.length ≤ max cs (ov + 1 + para.length) := le_max_right _ _
  simp only [split_long_paragraph] at hc
  have hsent : ∀ s ∈ splitSentences para, s.length ≤ para.length := by
    intro s hs
    have := splitSentencesAux_piece_le para.length none [] para s hs
    simpa using this
  have hinv := slp_fold_inv cs ov para.length _ hov hcs hovB
    (splitSentences para) ([], []) hsent (by simp) (by simp)
  split at hc
  · rcases List.mem_append.mp hc with h | h
    · exact hinv.1 c h
    · simp only [List.mem_singleton] at h
      subst h
      exact le_trans (pyStrip_length_le _) hinv.2
  · exact hinv.1 c hc

theorem ctStep_inv (cs ov L : Nat) (hov : 0 < ov)
    (acc : List (List Char) × List Char) (para0 : List Char)
    (hpL : (pyStrip para0).length ≤ L)
    (h1 : ∀ c ∈ acc.1, c.length ≤ max cs L + ov + 2)
    (h2 : acc.2.length ≤ max cs L + ov + 2) :
    (∀ c ∈ (ctStep cs ov acc para0).1, c.length ≤ max cs L + ov + 2) ∧
      (ctStep cs ov acc para0).2.length ≤ max cs L + ov + 2 := by
  have hcsB : cs ≤ max cs L := le_max_left cs L
  have hLB : L ≤ max cs L := le_max_right cs L
  simp only [ctStep]
  split
  · exact ⟨h1, h2⟩
  · rename_i hpara
    split
    · rename_i hover
      split
      · rename_i hcur
        dsimp only
        refine ⟨?_, ?_⟩
        · intro c hc
          rcases List.mem_append.mp hc with h | h
          · exact h1 c h
          · simp only [List.mem_singleton] at h
            subst h
            exact le_trans (pyStrip_length_le _) h2
        · split
          · have hole := get_overlap_length_le acc.2 ov hov
            simp only [List.length_append, List.length_cons]
            omega
          · omega
      · have hbound : ∀ c ∈ split_long_paragraph (pyStrip para0) cs ov,
            c.length ≤ max cs L + ov + 2 := by
          intro c hc
          have hb := split_long_paragraph_le (pyStrip para0) cs ov hov c hc
          have h3 := le_max_left cs (ov + 1 + (pyStrip para0).length)
          have h4 := le_max_right cs (ov + 1 + (pyStrip para0).length)
          omega
        cases hsc : split_long_paragraph (pyStrip para0) cs ov with
        | nil =>
          dsimp only
          refine ⟨h1, ?_⟩
          omega
        | cons x xs =>
          dsimp only
          refine ⟨?_, ?_⟩
          · intro c hc
            rcases List.mem_append.mp hc with h | h
            · exact h1 c h
            · refine hbound c ?_
              rw [hsc]
              exact List.dropLast_subset _ h
          · cases hlast : (x :: xs).getLast? with
            | none => simp at hlast
            | some y =>
              simp only [Option.getD_some]
              refine hbound y ?_
              rw [hsc]
              exact List.mem_of_mem_getLast? hlast
    · rename_i hfit
      dsimp only
      refine ⟨h1, ?_⟩
      split
      · simp only [List.length_append, List.length_cons]
        omega
      · omega

theorem ct_fold_inv (cs ov L : Nat) (hov : 0 < ov) :
    ∀ (paras : List (List Char)) (acc : List (List Char) × List Char),
      (∀ p ∈ paras, (pyStrip p).length ≤ L) →
      (∀ c ∈ acc.1, c.length ≤ max cs L + ov + 2) →
      acc.2.length ≤ max cs L + ov + 2 →
      (∀ c ∈ (paras.foldl (ctStep cs ov) acc).1, c.length ≤ max cs L + ov + 2) ∧
        (paras.foldl (ctStep cs ov) acc).2.length ≤ max cs L + ov + 2 := by
  intro paras
  induction paras with
  | nil =>
    intro acc _ h1 h2
    exact ⟨h1, h2⟩
  | cons p rest ih =>
    intro acc hs h1 h2
    rw [List.foldl_cons]
    have hstep := ctStep_inv cs ov L hov acc p (hs p (List.mem_cons_self _ _)) h1 h2
    exact ih (ctStep cs ov acc p) (fun x hx => hs x (List.mem_cons_of_mem _ hx))
      hstep.1 hstep.2

/-- The longest stripped paragraph of the stripped input. -/
def maxParaLen (text : List Char) : Nat :=
  ((splitParas (pyStrip text)).map (fun p => (pyStrip p).length)).foldr max 0

theorem le_foldr_max (l : List Nat) : ∀ x ∈ l, x ≤ l.foldr max 0 := by
  induction l with
  | nil => simp
  | cons a l ih =>
    intro x hx
    rcases List.mem_cons.mp hx with rfl | h
    · simp only [List.foldr_cons]
      exact le_max_left _ _
    · refine le_trans (ih x h) ?_
      simp only [List.foldr_cons]
      exact le_max_right _ _

/-- The amended C6 bound: every chunk is bounded by the larger of
chunk_size and the longest stripped paragraph, plus the overlap and the
two separator characters prepended with it. -/
def ChunkLenOk (text : List Char) : Prop :=
  ∀ c ∈ chunk_text text CHUNK_SIZE CHUNK_OVERLAP,
    c.text.length ≤ max CHUNK_SIZE (maxParaLen text) + CHUNK_OVERLAP + 2

/-- C6: with the default configuration every chunk produced by chunk_text has
text length at most max(chunk_size, longest stripped paragraph length)
+ overlap + 2. This is the amended bound: the claimed chunk_size + overlap
is exceeded when the two-character blank-line separator joins the overlap
seed and the next paragraph. -/
theorem chunk_text_length_bound (text : List Char) : ChunkLenOk text := by
  intro c hc
  simp only [chunk_text] at hc
  split at hc
  · cases hc
  · split at hc
    · rename_i hfit
      simp only [List.mem_singleton] at hc
      subst hc
      have h1 := le_max_left CHUNK_SIZE (maxParaLen text)
      simp only
      omega
    · obtain ⟨p, hp, rfl⟩ := List.mem_map.mp hc
      have hsnd : p.2 ∈ (if pyStrip ((splitParas (pyStrip text)).foldl
            (ctStep CHUNK_SIZE CHUNK_OVERLAP) ([], [])).2 ≠ [] then
          ((splitParas (pyStrip text)).foldl (ctStep CHUNK_SIZE CHUNK_OVERLAP) ([], [])).1
            ++ [pyStrip ((splitParas (pyStrip text)).foldl
                  (ctStep CHUNK_SIZE CHUNK_OVERLAP) ([], [])).2]
        else ((splitParas (pyStrip text)).foldl (ctStep CHUNK_SIZE CHUNK_OVERLAP) ([], [])).1) := by
        rcases p with ⟨i, x⟩
        have := (List.mk_mem_enumFrom_iff_le_and_getElem?_sub.mp hp).2
        exact List.getElem?_mem this
      have hparas : ∀ q ∈ splitParas (pyStrip text),
          (pyStrip q).length ≤ maxParaLen text := by
        intro q hq
        exact le_foldr_max _ _ (List.mem_map_of_mem _ hq)
      have hinv := ct_fold_inv CHUNK_SIZE CHUNK_OVERLAP (maxParaLen text) (by norm_num [CHUNK_OVERLAP])
        (splitParas (pyStrip text)) ([], []) hparas (by simp) (by simp)
      split at hsnd
      · rcases List.mem_append.mp hsnd with h | h
        · exact hinv.1 p.2 h
        · simp only [List.mem_singleton] at h
          rw [h]
          exact le_trans (pyStrip_length_le _) hinv.2
      · exact hinv.1 p.2 hsnd

/-! ## The C6 counterexample, evaluated symbolically -/

/-- A 200-character paragraph with no whitespace, a blank line, then a
1999-character paragraph: the overlap seed of 200 characters plus the
two-character separator plus the 1999-character paragraph make a
2201-character chunk. -/
def cexChunkText : List Char :=
  List.replicate 200 'a' ++ '\n' :: '\n' :: List.replicate 1999 'c'

theorem dropWhile_replicate_append (p : Char → Bool) (c : Char) (n : Nat)
    (h : p c = false) (hn : 0 < n) (rest : List Char) :
    (List.replicate n c ++ rest).dropWhile p = List.replicate n c ++ rest := by
  cases n with
  | zero => omega
  | succ m =>
    rw [List.replicate_succ, List.cons_append,
      List.dropWhile_cons_of_neg (by simp [h])]

theorem takeWhile_replicate_neg (p : Char → Bool) (c : Char) (n : Nat)
    (h : p c = false) : (List.replicate n c).takeWhile p = [] := by
  cases n with
  | zero => rfl
  | succ m =>
    rw [List.replicate_succ, List.takeWhile_cons, h]
    rfl

theorem cex_reverse : cexChunkText.reverse
    = List.replicate 1999 'c' ++ '\n' :: '\n' :: List.replicate 200 'a' := by
  rw [cexChunkText, List.reverse_append, List.reverse_cons, List.reverse_cons,
    List.reverse_replicate, List.reverse_replicate]
  rw [List.append_assoc, List.append_assoc]
  rfl

theorem pyStrip_cex : pyStrip cexChunkText = cexChunkText := by
  have h1 : cexChunkText.dropWhile pyIsSpace = cexChunkText := by
    rw [cexChunkText]
    exact dropWhile_replicate_append pyIsSpace 'a' 200 (by decide) (by norm_num) _
  have h2 : cexChunkText.reverse.dropWhile pyIsSpace = cexChunkText.reverse := by
    rw [cex_reverse]
    exact dropWhile_replicate_append pyIsSpace 'c' 1999 (by decide) (by norm_num) _
  rw [pyStrip, h1, h2, List.reverse_reverse]

theorem pyStrip_replicate (c : Char) (n : Nat) (h : pyIsSpace c = false) :
    pyStrip (List.replicate n c) = List.replicate n c := by
  cases n with
  | zero => rfl
  | succ m =>
    have h1 : (List.replicate (m + 1) c).dropWhile pyIsSpace = List.replicate (m + 1) c := by
      rw [List.replicate_succ, List.dropWhile_cons_of_neg (by simp [h])]
    have h2 : (List.replicate (m + 1) c).reverse.dropWhile pyIsSpace
        = (List.replicate (m + 1) c).reverse := by
      rw [List.reverse_replicate, List.replicate_succ,
        List.dropWhile_cons_of_neg (by simp [h])]
    rw [pyStrip, h1, h2, List.reverse_reverse]

theorem splitParasAux_no_nl (l : List Char) :
    ∀ (fuel : Nat) (acc rest : List Char), (∀ c ∈ l, ¬ c = '\n') → l.length ≤ fuel →
      splitParasAux fuel acc (l ++ rest)
        = splitParasAux (fuel - l.length) (l.reverse ++ acc) rest := by
  induction l with
  | nil =>
    intro fuel acc rest _ _
    simp
  | cons c l ih =>
    intro fuel acc rest hnl hlen
    cases fuel with
    | zero => simp at hlen
    | succ f =>
      have hc : ¬ c = '\n' := hnl c (List.mem_cons_self _ _)
      have heq : splitParasAux (f + 1) acc ((c :: l) ++ rest)
          = splitParasAux f (c :: acc) (l ++ rest) := by
        rw [List.cons_append]
        simp only [splitParasAux, if_neg hc]
      rw [heq, ih f (c :: acc) rest (fun x hx => hnl x (List.mem_cons_of_mem _ hx))
        (by simp at hlen; omega)]
      have harith : f - l.length = f + 1 - (c :: l).length := by
        simp
      have hacc : l.reverse ++ (c :: acc) = (c :: l).reverse ++ acc := by
        rw [List.reverse_cons, List.append_assoc]
        rfl
      rw [harith, hacc]

theorem splitParasAux_nil_input (fuel : Nat) (acc : List Char) :
    splitParasAux fuel acc [] = [acc.reverse] := by
  cases fuel <;> rfl

theorem splitParasAux_nl_found (f j : Nat) (acc rest : List Char)
    (h : lastNewlineIdx (rest.takeWhile pyIsSpace) = some j) :
    splitParasAux (f + 1) acc ('\n' :: rest)
      = acc.reverse :: splitParasAux f [] (rest.drop (j + 1)) := by
  simp only [splitParasAux, if_pos rfl, h]
  exact if_pos trivial

theorem splitParas_cex :
    splitParas cexChunkText = [List.replicate 200 'a', List.replicate 1999 'c'] := by
  have hnlA : ∀ c ∈ List.replicate 200 'a', ¬ c = '\n' := by
    intro c hc
    rw [List.eq_of_mem_replicate hc]
    decide
  have hnlC : ∀ c ∈ List.replicate 1999 'c', ¬ c = '\n' := by
    intro c hc
    rw [List.eq_of_mem_replicate hc]
    decide
  have hlen : cexChunkText.length = 2201 := by
    rw [cexChunkText, List.length_append, List.length_cons, List.length_cons,
      List.length_replicate, List.length_replicate]
  rw [splitParas, hlen]
  rw [show cexChunkText = List.replicate 200 'a'
    ++ ('\n' :: '\n' :: List.replicate 1999 'c') from rfl]
  rw [splitParasAux_no_nl (List.replicate 200 'a') 2201 []
    ('\n' :: '\n' :: List.replicate 1999 'c') hnlA
    (by rw [List.length_replicate]; norm_num)]
  have htw : (('\n' :: List.replicate 1999 'c').takeWhile pyIsSpace) = ['\n'] := by
    rw [List.takeWhile_cons]
    rw [show pyIsSpace '\n' = true from rfl]
    rw [takeWhile_replicate_neg pyIsSpace 'c' 1999 (by decide)]
    rfl
  have hln : lastNewlineIdx (('\n' :: List.replicate 1999 'c').takeWhile pyIsSpace)
      = some 0 := by
    rw [htw]
    rfl
  have hfuel : 2201 - (List.replicate 200 'a').length = 2000 + 1 := by
    rw [List.length_replicate]
  rw [hfuel, splitParasAux_nl_found 2000 0 _ _ hln]
  have hdrop : ('\n' :: List.replicate 1999 'c').drop (0 + 1) = List.replicate 1999 'c' := rfl
  rw [hdrop]
  have hlast : splitParasAux 2000 [] (List.replicate 1999 'c')
      = [List.replicate 1999 'c'] := by
    rw [show (List.replicate 1999 'c' : List Char)
      = List.replicate 1999 'c' ++ [] from (List.append_nil _).symm]
    rw [splitParasAux_no_nl (List.replicate 1999 'c') 2000 [] [] hnlC
      (by rw [List.length_replicate]; norm_num)]
    rw [splitParasAux_nil_input]
    rw [List.append_nil, List.reverse_reverse]
    rw [List.append_nil]
  rw [hlast]
  rw [List.append_nil, List.reverse_reverse]

theorem replicate_ne_nil_of_pos {α : Type} (c : α) (n : Nat) (h : 0 < n) :
    List.replicate n c ≠ [] := by
  cases n with
  | zero => omega
  | succ m =>
    rw [List.replicate_succ]
    exact List.cons_ne_nil _ _

theorem cex_length : cexChunkText.length = 2201 := by
  rw [cexChunkText, List.length_append, List.length_cons, List.length_cons,
    List.length_replicate, List.length_replicate]

theorem cex_ne_nil : cexChunkText ≠ [] := by
  intro h
  have h2 := congrArg List.length h
  rw [cex_length, List.length_nil] at h2
  exact absurd h2 (by decide)

theorem ctStep_fit (cs ov : Nat) (chunks : List (List Char))
    (current para0 : List Char) (h1 : pyStrip para0 ≠ [])
    (h2 : ¬ cs < current.length + (pyStrip para0).length + 2) :
    ctStep cs ov (chunks, current) para0
      = (chunks, if current ≠ [] then current ++ '\n' :: '\n' :: pyStrip para0
          else pyStrip para0) := by
  simp only [ctStep]
  rw [if_neg h1, if_neg h2]

theorem ctStep_flush (cs ov : Nat) (chunks : List (List Char))
    (current para0 : List Char) (h1 : pyStrip para0 ≠ [])
    (h2 : cs < current.length + (pyStrip para0).length + 2)
    (h3 : current ≠ []) :
    ctStep cs ov (chunks, current) para0
      = (chunks ++ [pyStrip current],
         if get_overlap current ov ≠ []
           then get_overlap current ov ++ '\n' :: '\n' :: pyStrip para0
           else pyStrip para0) := by
  simp only [ctStep]
  rw [if_neg h1, if_pos h2, if_pos h3]

theorem ctStep_cex1 :
    ctStep CHUNK_SIZE CHUNK_OVERLAP ([], []) (List.replicate 200 'a')
      = ([], List.replicate 200 'a') := by
  rw [ctStep_fit CHUNK_SIZE CHUNK_OVERLAP [] [] (List.replicate 200 'a')
    (by rw [pyStrip_replicate 'a' 200 (by decide)]
        exact replicate_ne_nil_of_pos 'a' 200 (by decide))
    (by rw [pyStrip_replicate 'a' 200 (by decide), List.length_replicate]
        decide)]
  rw [if_neg (by intro h; exact h rfl : ¬ ([] : List Char) ≠ [])]
  rw [pyStrip_replicate 'a' 200 (by decide)]

theorem get_overlap_cex :
    get_overlap (List.replicate 200 'a') CHUNK_OVERLAP = List.replicate 200 'a' := by
  rw [get_overlap]
  rw [if_pos (by rw [List.length_replicate]; decide)]

theorem ctStep_cex2 :
    ctStep CHUNK_SIZE CHUNK_OVERLAP ([], List.replicate 200 'a')
        (List.replicate 1999 'c')
      = ([List.replicate 200 'a'], cexChunkText) := by
  rw [ctStep_flush CHUNK_SIZE CHUNK_OVERLAP [] (List.replicate 200 'a')
    (List.replicate 1999 'c')
    (by rw [pyStrip_replicate 'c' 1999 (by decide)]
        exact replicate_ne_nil_of_pos 'c' 1999 (by decide))
    (by rw [pyStrip_replicate 'c' 1999 (by decide), List.length_replicate,
          List.length_replicate]
        decide)
    (replicate_ne_nil_of_pos 'a' 200 (by decide))]
  rw [get_overlap_cex]
  rw [if_pos (replicate_ne_nil_of_pos 'a' 200 (by decide))]
  rw [pyStrip_replicate 'a' 200 (by decide), pyStrip_replicate 'c' 1999 (by decide)]
  rfl

theorem chunk_text_cex :
    chunk_text cexChunkText CHUNK_SIZE CHUNK_OVERLAP
      = [⟨List.replicate 200 'a', 0, 2⟩, ⟨cexChunkText, 1, 2⟩] := by
  simp only [chunk_text]
  rw [pyStrip_cex]
  rw [if_neg cex_ne_nil]
  rw [cex_length]
  rw [if_neg (by decide : ¬ (2201 ≤ CHUNK_SIZE))]
  rw [splitParas_cex]
  rw [List.foldl_cons, ctStep_cex1, List.foldl_cons, ctStep_cex2, List.foldl_nil]
  dsimp only
  rw [pyStrip_cex]
  rw [if_pos (by intro h; exact cex_ne_nil h : cexChunkText ≠ [])]
  rfl

/-- The stated chunk_size + overlap bound fails: the two-character blank-line
separator joins the overlap seed and the next paragraph, giving a chunk of
2201 characters against the claimed 2200. -/
theorem chunk_bound_cex :
    ¬ ∀ c ∈ chunk_text cexChunkText CHUNK_SIZE CHUNK_OVERLAP,
        c.text.length ≤ CHUNK_SIZE + CHUNK_OVERLAP := by
  intro h
  have h2 := h ⟨cexChunkText, 1, 2⟩
    (by rw [chunk_text_cex]; exact List.mem_cons_of_mem _ (List.mem_cons_self _ _))
  dsimp only at h2
  rw [cex_length] at h2
  exact absurd h2 (by decide)
